import Mathlib

/-!
Verification of the binary-struct framework in `util.py` (buildvis).

The Python source defines a metaclass `StructMeta` that compiles an ordered
field-descriptor list (`__fields__`) into a packed-struct codec, and a base
class `MapStruct` providing construction, `pack`, `unpack`, equality and a
textual form.  This file is a shallow embedding of that code: Python values
are `Value`, struct type-code strings are `TypeCode`, the per-instance
`_values` dict is an insertion-ordered association list, and fallible Python
operations return `Except String`.
-/

namespace Buildvis

/-- Decidable equality of `Except` results, so that concrete runs of the
fallible operations can be checked by `decide`. -/
instance {ε α : Type} [DecidableEq ε] [DecidableEq α] : DecidableEq (Except ε α) := fun a b =>
  match a, b with
  | .ok x, .ok y =>
    if h : x = y then isTrue (by rw [h]) else isFalse (fun hc => by cases hc; exact h rfl)
  | .ok _, .error _ => isFalse (fun hc => by cases hc)
  | .error _, .ok _ => isFalse (fun hc => by cases hc)
  | .error e, .error e2 =>
    if h : e = e2 then isTrue (by rw [h]) else isFalse (fun hc => by cases hc; exact h rfl)

/-- A Python value held in a struct instance's `_values` dict: an integer, a
text string (characters as code points), or a byte string (bytes as naturals,
each intended to be below 256). -/
inductive Value where
  | int (n : Int)
  | str (s : List Nat)
  | bytes (b : List Nat)
deriving DecidableEq

/-- A field's type entry `f[1]` in a `__fields__` tuple.  `h` is the struct
code `'h'` (signed 16-bit little-endian), `i` is `'i'` (signed 32-bit),
`s n` is `'ns'` (fixed `n`-byte string), `x` is `'x'` (one filler byte),
`empty` is the empty string `''`, `tnone` is Python `None`, and `bad` stands
for an unsupported struct format character such as `'z'`. -/
inductive TypeCode where
  | h
  | i
  | s (n : Nat)
  | x
  | empty
  | tnone
  | bad
deriving DecidableEq

/-- One entry of `__fields__`: name `f[0]` (Python `None` for filler),
type `f[1]`, default value `f[2]`.  The optional docstring `f[3]` plays no
behavioural role and is omitted. -/
structure Field where
  name : Option String
  type : TypeCode
  default : Value
deriving DecidableEq

/-- Python `'x' in f[1]` for the type codes we model (only meaningful when
`f[1]` is a string, i.e. not `tnone`). -/
def hasX : TypeCode → Bool
  | .x => true
  | _ => false

/-- Python `'s' in f[1]` for the type codes we model. -/
def hasS : TypeCode → Bool
  | .s _ => true
  | _ => false

/-- Python truthiness of `f[1]` (line 100: `if f[1]`): `None` and `''` are
falsy, every non-empty format string is truthy. -/
def truthy : TypeCode → Bool
  | .empty => false
  | .tnone => false
  | _ => true

/-- Whether `struct.Struct` accepts the format character (`bad` is refused
with `struct.error`). -/
def codeValid : TypeCode → Bool
  | .h => true
  | .i => true
  | .s _ => true
  | .x => true
  | _ => false

/-- Byte width contributed by one format code to `Struct.size`. -/
def width : TypeCode → Nat
  | .h => 2
  | .i => 4
  | .s n => n
  | .x => 1
  | _ => 0

/-- Total byte size of a format-code list (`struct.calcsize`). -/
def widthSum (codes : List TypeCode) : Nat :=
  (codes.map width).sum

/-- `zstrip` (util.py lines 19-29) applied to a Python value.  A byte string
is first decoded as ASCII with undecodable bytes dropped (`decode('ascii',
'ignore')` keeps exactly the bytes below 128); then the prefix before the
first NUL character is returned (`chars[:chars.index('\0')]`), or the whole
string when no NUL is present.  A non-string value raises `TypeError`
(`'\0' in chars` on a non-iterable). -/
def zstrip : Value → Except String Value
  | .bytes b => Except.ok (.str ((b.filter (fun c => c < 128)).takeWhile (fun c => c ≠ 0)))
  | .str s => Except.ok (.str (s.takeWhile (fun c => c ≠ 0)))
  | .int _ => Except.error "TypeError"

/-- `zpad` (util.py lines 14-17): `pack('8s', six.b(chars))`.  `six.b`
latin-1-encodes a text string (failing on code points at or above 256), and
the `'8s'` pack truncates to 8 bytes or pads with zero bytes up to 8.
A non-text value raises. -/
def zpad : Value → Except String (List Nat)
  | .str s =>
    if s.all (fun c => c < 256) then
      Except.ok (s.take 8 ++ List.replicate (8 - s.length) 0)
    else
      Except.error "UnicodeEncodeError"
  | _ => Except.error "TypeError"

/-- The `_values` dict of an instance: an insertion-ordered association list
from field name (`None` allowed, as for filler fields) to value. -/
abbrev Values := List (Option String × Value)

/-- Python `d[k] = v` on an insertion-ordered dict: update in place when the
key is present, append otherwise. -/
def dictUpdate (d : Values) (k : Option String) (v : Value) : Values :=
  if k ∈ d.map Prod.fst then
    d.map (fun p => if p.1 = k then (k, v) else p)
  else
    d ++ [(k, v)]

/-- Python `d[k]` / `d.get(k)` on the association list. -/
def dictGet (d : Values) (k : Option String) : Option Value :=
  (d.find? (fun p => decide (p.1 = k))).map Prod.snd

/-- Line 139: `dict([(f[0], f[2]) for f in self.__fields__])` — defaults for
all defined fields, later duplicates overwriting earlier ones. -/
def mkDefaults (fields : List Field) : Values :=
  fields.foldl (fun d f => dictUpdate d f.name f.default) []

/-- A compiled record type as produced by `StructMeta.__new__`: the field
list, `_keys` (names of fields whose type has no `'x'`, line 99), the
`_struct` format-code list (codes of fields with truthy type, line 100) and
its byte size. -/
structure Schema where
  fields : List Field
  keys : List (Option String)
  fmt : List TypeCode
  size : Nat
deriving DecidableEq

/-- `StructMeta.__new__` (lines 85-102).  The property-creation loop
evaluates `'x' not in f[1]` for every field, which raises `TypeError` as
soon as some field's type is `None`; afterwards `Struct("<" + ...)` raises
`struct.error` if any (truthy) format code is unsupported. -/
def compile (fields : List Field) : Except String Schema :=
  if fields.any (fun f => decide (f.type = TypeCode.tnone)) then
    Except.error "TypeError"
  else if ((fields.filter (fun f => truthy f.type)).map (fun f => f.type)).all codeValid then
    Except.ok ⟨fields, (fields.filter (fun f => !hasX f.type)).map (fun f => f.name),
      (fields.filter (fun f => truthy f.type)).map (fun f => f.type),
      widthSum ((fields.filter (fun f => truthy f.type)).map (fun f => f.type))⟩
  else
    Except.error "struct.error"

/-- The property stored on the class under attribute name `k`: properties are
created for every field whose type lacks `'x'` (line 93-94), a later field
overwriting an earlier one of the same name. -/
def propertyOf (fields : List Field) (k : Option String) : Option Field :=
  (fields.filter (fun f => !hasX f.type && decide (f.name = k))).getLast?

/-- The value a generated setter stores (`StructMeta._set`, lines 68-76):
string fields pass through `zstrip`, every other field stores verbatim. -/
def storeVal (t : TypeCode) (v : Value) : Except String Value :=
  if hasS t then zstrip v else Except.ok v

/-- A record instance: its compiled type together with its `_values` dict. -/
structure Instance where
  schema : Schema
  values : Values
deriving DecidableEq

/-- `setattr(self, k, v)` for an attribute backed by a generated property:
look up the property, run its setter, store into `_values`. -/
def setAttr (s : Schema) (vals : Values) (k : Option String) (v : Value) :
    Except String Values :=
  match propertyOf s.fields k with
  | some f => do
    let v2 ← storeVal f.type v
    Except.ok (dictUpdate vals k v2)
  | none => Except.error "AttributeError"

/-- Lines 144-146: `values = {}; values.update(dict(zip(self._keys, args)));
values.update(kwargs)` — positional values keyed in declaration order, then
keyword values overriding by name. -/
def buildArgDict (keys : List (Option String)) (args : List Value)
    (kwargs : List (String × Value)) : Values :=
  let d := (keys.zip args).foldl (fun d p => dictUpdate d p.1 p.2) []
  kwargs.foldl (fun d p => dictUpdate d (some p.1) p.2) d

/-- Lines 147-149: assign each collected value through `setattr`, skipping
keys that are not in `_keys`. -/
def assignArgs (s : Schema) : Values → Values → Except String Values
  | vals, [] => Except.ok vals
  | vals, (k, v) :: rest =>
    if k ∈ s.keys then do
      let vals2 ← setAttr s vals k v
      assignArgs s vals2 rest
    else
      assignArgs s vals rest

/-- `MapStruct.__init__` without a `'bytes'` keyword (lines 138-149):
defaults for every field, then positional/keyword assignment through the
setters. -/
def initFromValues (s : Schema) (args : List Value)
    (kwargs : List (String × Value)) : Except String Instance := do
  let vals ← assignArgs s (mkDefaults s.fields) (buildArgDict s.keys args kwargs)
  Except.ok ⟨s, vals⟩

/-- Encode one struct argument per its format code (`struct.pack` on one
item): `'h'`/`'i'` require an in-range integer, `'ns'` requires a byte
string which is truncated or zero-padded to `n`; a value of the wrong
Python type raises `struct.error`. -/
def packOne : TypeCode → Value → Except String (List Nat)
  | .h, .int n =>
    if -32768 ≤ n ∧ n < 32768 then
      Except.ok [((n % 65536).toNat) % 256, ((n % 65536).toNat) / 256 % 256]
    else
      Except.error "struct.error: short out of range"
  | .i, .int n =>
    if -2147483648 ≤ n ∧ n < 2147483648 then
      Except.ok [((n % 4294967296).toNat) % 256, ((n % 4294967296).toNat) / 256 % 256,
        ((n % 4294967296).toNat) / 65536 % 256, ((n % 4294967296).toNat) / 16777216 % 256]
    else
      Except.error "struct.error: int out of range"
  | .s n, .bytes b => Except.ok (b.take n ++ List.replicate (n - b.length) 0)
  | _, _ => Except.error "struct.error: bad argument"

/-- `self._struct.pack(*packs)` (line 158): each non-`'x'` code consumes one
argument, `'x'` codes emit a zero byte, and a leftover or missing argument
is a `struct.error`. -/
def structPack : List TypeCode → List Value → Except String (List Nat)
  | [], [] => Except.ok []
  | [], _ :: _ => Except.error "struct.error: too many arguments"
  | .x :: cs, args => do
    let rest ← structPack cs args
    Except.ok (0 :: rest)
  | _ :: _, [] => Except.error "struct.error: not enough arguments"
  | c :: cs, a :: args => do
    let first ← packOne c a
    let rest ← structPack cs args
    Except.ok (first ++ rest)

/-- The `packs` list built by `MapStruct.pack` (lines 152-157): fields with a
string type contribute `zpad(getattr(self, f[0]))`, other fields whose name
is in `_keys` contribute their raw value, and everything else (filler) is
skipped. -/
def buildPacks (keys : List (Option String)) (vals : Values) :
    List Field → Except String (List Value)
  | [] => Except.ok []
  | f :: rest =>
    if hasS f.type then
      match dictGet vals f.name with
      | some v => do
        let b ← zpad v
        let more ← buildPacks keys vals rest
        Except.ok (Value.bytes b :: more)
      | none => Except.error "KeyError"
    else if f.name ∈ keys then
      match dictGet vals f.name with
      | some v => do
        let more ← buildPacks keys vals rest
        Except.ok (v :: more)
      | none => Except.error "KeyError"
    else
      buildPacks keys vals rest

/-- `MapStruct.pack` (lines 151-158). -/
def packInstance (inst : Instance) : Except String (List Nat) := do
  let packs ← buildPacks inst.schema.keys inst.values inst.schema.fields
  structPack inst.schema.fmt packs

/-- Little-endian byte list to natural number. -/
def fromLE : List Nat → Nat
  | [] => 0
  | b :: rest => b + 256 * fromLE rest

/-- Two's-complement reading of an unsigned value of `w` bytes. -/
def sint (w : Nat) (m : Nat) : Int :=
  if m < 2 ^ (8 * w - 1) then (m : Int) else (m : Int) - 2 ^ (8 * w)

/-- The tuple returned by `self._struct.unpack(data)` once the length check
has passed: decode codes in order, `'x'` consuming one byte and producing no
value, `'ns'` producing the raw (unstripped) byte slice. -/
def structUnpackLoop : List TypeCode → List Nat → List Value
  | [], _ => []
  | .h :: cs, data => .int (sint 2 (fromLE (data.take 2))) :: structUnpackLoop cs (data.drop 2)
  | .i :: cs, data => .int (sint 4 (fromLE (data.take 4))) :: structUnpackLoop cs (data.drop 4)
  | .s n :: cs, data => .bytes (data.take n) :: structUnpackLoop cs (data.drop n)
  | .x :: cs, data => structUnpackLoop cs (data.drop 1)
  | .empty :: cs, data => structUnpackLoop cs data
  | .tnone :: cs, data => structUnpackLoop cs data
  | .bad :: cs, data => structUnpackLoop cs data

/-- The `struct.unpack` size-mismatch message. -/
def sizeErr (n : Nat) : String :=
  "unpack requires a buffer of " ++ toString n ++ " bytes"

/-- `self._struct.unpack(data)`: the buffer length must equal the struct
size exactly, otherwise `struct.error` is raised before anything is
decoded. -/
def structUnpack (codes : List TypeCode) (data : List Nat) :
    Except String (List Value) :=
  if data.length = widthSum codes then
    Except.ok (structUnpackLoop codes data)
  else
    Except.error (sizeErr (widthSum codes))

/-- The `setattr` loop of `MapStruct.unpack` (lines 161-162), with the
mutable `_values` threaded explicitly: on an exception the values written so
far persist and the error is reported. -/
def setterFold (s : Schema) : Values → List (Option String × Value) →
    Values × Option String
  | vals, [] => (vals, none)
  | vals, (k, v) :: rest =>
    match setAttr s vals k v with
    | Except.ok vals2 => setterFold s vals2 rest
    | Except.error e => (vals, some e)

/-- `MapStruct.unpack` (lines 160-162) as a state transformer: the final
`_values` dict together with the exception, if one was raised.  The length
check inside `struct.unpack` runs before any setter. -/
def unpackMut (inst : Instance) (data : List Nat) : Values × Option String :=
  match structUnpack inst.schema.fmt data with
  | Except.ok decoded => setterFold inst.schema inst.values (inst.schema.keys.zip decoded)
  | Except.error e => (inst.values, some e)

/-- `MapStruct.unpack` viewed as a fallible function returning the updated
instance. -/
def unpackInstance (inst : Instance) (data : List Nat) : Except String Instance :=
  match unpackMut inst data with
  | (vals, none) => Except.ok ⟨inst.schema, vals⟩
  | (_, some e) => Except.error e

/-- `MapStruct.__init__` including the `'bytes'` keyword branch
(lines 140-141): when a `bytes` keyword is present all other arguments are
ignored and the fresh instance is populated via `unpack`. -/
def initInstance (s : Schema) (args : List Value)
    (kwargs : List (String × Value)) : Except String Instance :=
  match (kwargs.filter (fun p => decide (p.1 = "bytes"))).getLast? with
  | some p =>
    match p.2 with
    | Value.bytes data =>
      match unpackMut ⟨s, mkDefaults s.fields⟩ data with
      | (vals, none) => Except.ok ⟨s, vals⟩
      | (_, some e) => Except.error e
    | _ => Except.error "TypeError"
  | none => initFromValues s args kwargs

/-- Python `dict.__eq__`: same key set, same value at every key
(order-insensitive). -/
def dictEq (a b : Values) : Bool :=
  a.all (fun p => decide (dictGet b p.1 = some p.2)) &&
    b.all (fun p => decide (dictGet a p.1 = some p.2))

/-- `MapStruct.__eq__` (lines 164-165): `isinstance(other, self.__class__)`
(same compiled type in this embedding) and `self._values == other._values`. -/
def instEq (a b : Instance) : Bool :=
  decide (a.schema = b.schema) && dictEq a.values b.values

/-- `MapStruct.__str__` (lines 170-171): the sequence of `name=value` entries,
one per entry of `__fields__` in declaration order (the textual join being a
presentation detail). -/
def strFields (inst : Instance) : List (Option String × Option Value) :=
  inst.schema.fields.map (fun f => (f.name, dictGet inst.values f.name))

/-- A value "contains no NUL byte". -/
def noNul : Value → Bool
  | .int _ => true
  | .str s => !s.contains 0
  | .bytes b => !b.contains 0

/-- Well-formedness of a stored value for round-tripping through
pack/unpack: integers in range for their code, strings NUL-free, ASCII and
short enough for both the hard-coded 8-byte `zpad` and the declared field
width. -/
def fitsB : TypeCode → Value → Bool
  | .h, .int n => decide (-32768 ≤ n ∧ n < 32768)
  | .i, .int n => decide (-2147483648 ≤ n ∧ n < 2147483648)
  | .s n, .str cs =>
    decide (cs.length ≤ 8 ∧ cs.length ≤ n) && cs.all (fun c => 0 < c ∧ c < 128)
  | _, _ => false



/-- The last value paired with key `k` in a pair list, if any: the value a
sequence of dict updates leaves at `k`. -/
def lastVal : List (Option String × Value) → Option String → Option Value
  | [], _ => none
  | p :: rest, k =>
    match lastVal rest k with
    | some v => some v
    | none => if p.1 = k then some p.2 else none

/-- The value `struct.unpack` recovers from the encoding of one argument:
integers decode to themselves, byte strings come back truncated or
zero-padded to the declared width. -/
def roundOne : TypeCode → Value → Value
  | .h, .int n => .int n
  | .i, .int n => .int n
  | .s n, .bytes b => .bytes (b.take n ++ List.replicate (n - b.length) 0)
  | _, v => v

/-- `structUnpackLoop` applied to a successful `structPack` output, argument
by argument (filler codes consume no argument). -/
def roundVals : List TypeCode → List Value → List Value
  | [], _ => []
  | .x :: cs, args => roundVals cs args
  | _ :: _, [] => []
  | c :: cs, a :: args => roundOne c a :: roundVals cs args

/-- The names of the non-filler fields in declaration order (the `_keys`
expression of line 99). -/
def nonXnames (flds : List Field) : List (Option String) :=
  (flds.filter (fun f => !hasX f.type)).map (fun f => f.name)

/-- The `packs` arguments `MapStruct.pack` hands to `struct.pack`, expressed
directly over the field list: one entry per non-filler field, `zpad`-style
padding for string fields, the raw stored value otherwise.  (Placeholder
values in unreachable branches.) -/
def fieldArgs (vals : Values) : List Field → List Value
  | [] => []
  | f :: rest =>
    if hasX f.type then fieldArgs vals rest
    else
      (match dictGet vals f.name with
       | some v =>
         if hasS f.type then
           match v with
           | .str cs => Value.bytes (cs.take 8 ++ List.replicate (8 - cs.length) 0)
           | v2 => v2
         else v
       | none => Value.int 0) :: fieldArgs vals rest

/-- Well-formed field naming, the convention every record type in the
omgifol family follows: filler fields are named `None`, every other field
has a proper name, and non-filler names are distinct. -/
@[reducible] def wfNames (fields : List Field) : Prop :=
  (∀ f ∈ fields, if hasX f.type = true then f.name = none else f.name ≠ none) ∧
    (nonXnames fields).Nodup

/-- Field lists whose every type is a plain supported struct code
(no virtual fields, no unsupported codes). -/
@[reducible] def plainTypes (fields : List Field) : Prop :=
  ∀ f ∈ fields, f.type ≠ TypeCode.empty ∧ f.type ≠ TypeCode.tnone ∧ f.type ≠ TypeCode.bad

/-- Every non-filler field currently holds a value that round-trips through
its struct code (see `fitsB`). -/
@[reducible] def goodVals (fields : List Field) (vals : Values) : Prop :=
  ∀ f ∈ fields, hasX f.type = false →
    (match dictGet vals f.name with
     | some v => fitsB f.type v
     | none => false) = true

/-- The value that the last relevant assignment of the pair list leaves at
key `k`: pairs whose key is not in `_keys` are skipped, the others store
through the field's setter. -/
def lastStored (sch : Schema) : List (Option String × Value) → Option String → Option Value
  | [], _ => none
  | p :: rest, k =>
    match lastStored sch rest k with
    | some v => some v
    | none =>
      if p.1 = k ∧ k ∈ sch.keys then
        match propertyOf sch.fields k with
        | some f => (storeVal f.type p.2).toOption
        | none => none
      else none

/-- The invariant that every string-typed field's stored value is free of
NUL bytes. -/
def strInvB (fields : List Field) (vals : Values) : Bool :=
  fields.all (fun f => !hasS f.type ||
    match dictGet vals f.name with
    | some v => noNul v
    | none => true)

/-- Example record type for witnesses: an 8-byte name string, one filler
byte, a signed 16-bit count and a signed 32-bit value (size 15). -/
def exFields : List Field :=
  [⟨some "name", TypeCode.s 8, Value.str []⟩, ⟨none, TypeCode.x, Value.int 0⟩,
   ⟨some "count", TypeCode.h, Value.int 0⟩, ⟨some "big", TypeCode.i, Value.int 0⟩]

/-- The compiled form of `exFields`. -/
def exSch : Schema := ⟨exFields, [some "name", some "count", some "big"],
  [TypeCode.s 8, TypeCode.x, TypeCode.h, TypeCode.i], 15⟩

/-- A concrete instance of `exSch` with in-range values. -/
def exInst : Instance := ⟨exSch, [(some "name", Value.str [65, 66]), (none, Value.int 0),
  (some "count", Value.int (-5)), (some "big", Value.int 100000)]⟩

/-- A record type with a single 8-byte string field. -/
def nameFields : List Field := [⟨some "name", TypeCode.s 8, Value.str []⟩]

/-- The compiled form of `nameFields`. -/
def nameSch : Schema := ⟨nameFields, [some "name"], [TypeCode.s 8], 8⟩

/-- An instance of `nameSch` holding a 9-character string, reachable through
the constructor because the setter strips NULs but never truncates. -/
def longInst : Instance :=
  ⟨nameSch, [(some "name", Value.str [65, 66, 67, 68, 69, 70, 71, 72, 73])]⟩

/-- A record type with one stored field and one filler field. -/
def c3Fields : List Field :=
  [⟨some "a", TypeCode.h, Value.int 0⟩, ⟨none, TypeCode.x, Value.int 0⟩]

/-- The compiled form of `c3Fields`. -/
def c3Sch : Schema := ⟨c3Fields, [some "a"], [TypeCode.h, TypeCode.x], 3⟩

/-- A record type with a stored field and an empty-type virtual field. -/
def c2Fields : List Field :=
  [⟨some "a", TypeCode.h, Value.int 0⟩, ⟨some "v", TypeCode.empty, Value.int 7⟩]

/-- A record type whose empty-type virtual field precedes a string and an
integer field — the layout on which `unpack` of a correctly-sized buffer
raises, because `zip(self._keys, ...)` shifts the decoded values by one. -/
def c6Fields : List Field := [⟨some "v", TypeCode.empty, Value.int 0⟩,
  ⟨some "a", TypeCode.s 8, Value.str []⟩, ⟨some "b", TypeCode.h, Value.int 0⟩]

/-- The compiled form of `c6Fields`. -/
def c6Sch : Schema := ⟨c6Fields, [some "v", some "a", some "b"],
  [TypeCode.s 8, TypeCode.h], 10⟩

/-- The example record type of the specification: a 4-byte id string and a
signed 16-bit count (size 6). -/
def c7Fields : List Field :=
  [⟨some "id", TypeCode.s 4, Value.str []⟩, ⟨some "count", TypeCode.h, Value.int 0⟩]

/-- The compiled form of `c7Fields`. -/
def c7Sch : Schema := ⟨c7Fields, [some "id", some "count"], [TypeCode.s 4, TypeCode.h], 6⟩

/-! ## Dictionary lemmas -/

theorem dictGet_nil (k : Option String) : dictGet [] k = none := rfl

theorem dictGet_cons (p : Option String × Value) (d : Values) (k : Option String) :
    dictGet (p :: d) k = if p.1 = k then some p.2 else dictGet d k := by
  simp only [dictGet, List.find?_cons]
  by_cases h : p.1 = k
  · simp [h]
  · simp [h]

theorem dictGet_map_update_ne (d : Values) (k : Option String) (v : Value)
    (k' : Option String) (h : k' ≠ k) :
    dictGet (d.map (fun p => if p.1 = k then (k, v) else p)) k' = dictGet d k' := by
  induction d with
  | nil => rfl
  | cons p rest ih =>
    by_cases hp : p.1 = k
    · simp only [List.map_cons, if_pos hp, dictGet_cons]
      rw [if_neg (fun hc => h hc.symm), if_neg (fun hc : p.1 = k' => h (hp ▸ hc).symm), ih]
    · simp only [List.map_cons, if_neg hp, dictGet_cons, ih]

theorem dictGet_map_update_self (d : Values) (k : Option String) (v : Value)
    (h : k ∈ d.map Prod.fst) :
    dictGet (d.map (fun p => if p.1 = k then (k, v) else p)) k = some v := by
  induction d with
  | nil => simp at h
  | cons p rest ih =>
    by_cases hp : p.1 = k
    · simp only [List.map_cons, if_pos hp, dictGet_cons]
      simp
    · simp only [List.map_cons, if_neg hp, dictGet_cons, if_neg hp]
      refine ih ?_
      simp only [List.map_cons, List.mem_cons] at h
      rcases h with hc | hc
      · exact absurd hc.symm hp
      · exact hc

theorem dictGet_append_right (d : Values) (d2 : Values) (k : Option String)
    (h : dictGet d k = none) : dictGet (d ++ d2) k = dictGet d2 k := by
  induction d with
  | nil => rfl
  | cons p rest ih =>
    rw [dictGet_cons] at h
    by_cases hp : p.1 = k
    · simp [hp] at h
    · simp only [List.cons_append, dictGet_cons, if_neg hp]
      rw [if_neg hp] at h
      exact ih h

theorem dictGet_none_of_not_mem (d : Values) (k : Option String)
    (h : k ∉ d.map Prod.fst) : dictGet d k = none := by
  induction d with
  | nil => rfl
  | cons p rest ih =>
    simp only [List.map_cons, List.mem_cons] at h
    push_neg at h
    rw [dictGet_cons, if_neg (fun hc => h.1 hc.symm)]
    exact ih h.2

theorem dictGet_update (d : Values) (k : Option String) (v : Value) (k' : Option String) :
    dictGet (dictUpdate d k v) k' = if k' = k then some v else dictGet d k' := by
  unfold dictUpdate
  by_cases hmem : k ∈ d.map Prod.fst
  · rw [if_pos hmem]
    by_cases hk : k' = k
    · subst hk
      rw [if_pos rfl, dictGet_map_update_self d k' v hmem]
    · rw [if_neg hk, dictGet_map_update_ne d k v k' hk]
  · rw [if_neg hmem]
    by_cases hk : k' = k
    · subst hk
      rw [if_pos rfl, dictGet_append_right _ _ _ (dictGet_none_of_not_mem d k' hmem)]
      simp [dictGet_cons]
    · rw [if_neg hk]
      by_cases hmem2 : k' ∈ d.map Prod.fst
      · induction d with
        | nil => simp at hmem2
        | cons p rest ih =>
          simp only [List.cons_append, dictGet_cons]
          by_cases hp : p.1 = k'
          · rw [if_pos hp, if_pos hp]
          · rw [if_neg hp, if_neg hp]
            simp only [List.map_cons, List.mem_cons] at hmem hmem2
            push_neg at hmem
            exact ih hmem.2 (by rcases hmem2 with hc | hc; exact absurd hc.symm hp; exact hc)
      · rw [dictGet_append_right _ _ _ (dictGet_none_of_not_mem d k' hmem2),
          dictGet_none_of_not_mem d k' hmem2, dictGet_cons,
          if_neg (fun hc : k = k' => hk hc.symm)]
        rfl

/-! ## Fold-update characterization -/

theorem dictGet_foldl_update (ps : List (Option String × Value)) (d : Values)
    (k : Option String) :
    dictGet (ps.foldl (fun d p => dictUpdate d p.1 p.2) d) k =
      match lastVal ps k with
      | some v => some v
      | none => dictGet d k := by
  induction ps generalizing d with
  | nil => rfl
  | cons p rest ih =>
    simp only [List.foldl_cons, lastVal, ih (dictUpdate d p.1 p.2), dictGet_update]
    cases hrest : lastVal rest k with
    | some v => rfl
    | none =>
      by_cases hp : p.1 = k
      · simp [hp]
      · simp only [if_neg hp, if_neg (fun hc : k = p.1 => hp hc.symm)]

theorem dictGet_mkDefaults (fields : List Field) (k : Option String) :
    dictGet (mkDefaults fields) k =
      match lastVal (fields.map (fun f => (f.name, f.default))) k with
      | some v => some v
      | none => none := by
  have hfold : mkDefaults fields =
      (fields.map (fun f => (f.name, f.default))).foldl (fun d p => dictUpdate d p.1 p.2) [] := by
    rw [List.foldl_map]
    rfl
  rw [hfold, dictGet_foldl_update]
  cases lastVal (fields.map (fun f => (f.name, f.default))) k <;> rfl

/-! ## String stripping and padding lemmas -/

theorem takeWhile_append_all {p : Nat → Bool} (s t : List Nat)
    (hs : ∀ c ∈ s, p c = true) :
    (s ++ t).takeWhile p = s ++ t.takeWhile p := by
  induction s with
  | nil => simp
  | cons c rest ih =>
    have hc := hs c (by simp)
    simp only [List.cons_append, List.takeWhile_cons, hc]
    rw [ih (fun c hc2 => hs c (by simp [hc2]))]
    simp

theorem takeWhile_replicate_zero (m : Nat) :
    (List.replicate m 0).takeWhile (fun c => decide (c ≠ 0)) = [] := by
  cases m with
  | zero => rfl
  | succ m2 => simp [List.replicate, List.takeWhile_cons]

theorem filter_all_true {p : Nat → Bool} (s : List Nat) (hs : ∀ c ∈ s, p c = true) :
    s.filter p = s := by
  induction s with
  | nil => rfl
  | cons c rest ih =>
    rw [List.filter_cons, if_pos (hs c (by simp)), ih (fun c hc => hs c (by simp [hc]))]

theorem mem_takeWhile_ne_zero (l : List Nat) (c : Nat)
    (hc : c ∈ l.takeWhile (fun c => decide (c ≠ 0))) : c ≠ 0 := by
  induction l with
  | nil => simp at hc
  | cons a rest ih =>
    rw [List.takeWhile_cons] at hc
    by_cases ha : a = 0
    · simp [ha] at hc
    · rw [if_pos (by simp [ha])] at hc
      rcases List.mem_cons.mp hc with hc2 | hc2
      · exact hc2 ▸ ha
      · exact ih hc2

/-- `strip(pad(s)) = s` for a NUL-free ASCII string of length at most 8. -/
theorem zstrip_zpad (s : List Nat) (hlen : s.length ≤ 8)
    (hs : ∀ c ∈ s, 0 < c ∧ c < 128) :
    ∃ b, zpad (.str s) = Except.ok b ∧ zstrip (.bytes b) = Except.ok (.str s) := by
  have h256 : s.all (fun c => c < 256) = true := by
    rw [List.all_eq_true]
    intro c hc
    have := (hs c hc).2
    simp only [decide_eq_true_eq]
    omega
  refine ⟨s.take 8 ++ List.replicate (8 - s.length) 0, ?_, ?_⟩
  · simp [zpad, h256]
  · have htake : s.take 8 = s := List.take_of_length_le hlen
    rw [htake]
    simp only [zstrip, Except.ok.injEq, Value.str.injEq]
    have hfilter : (s ++ List.replicate (8 - s.length) 0).filter (fun c => decide (c < 128)) =
        s ++ List.replicate (8 - s.length) 0 := by
      refine filter_all_true _ (fun c hc => ?_)
      rcases List.mem_append.mp hc with hc2 | hc2
      · simp only [decide_eq_true_eq]
        exact (hs c hc2).2
      · have := List.eq_of_mem_replicate hc2
        simp [this]
    rw [hfilter, takeWhile_append_all _ _ (fun c hc => by
      have := (hs c hc).1
      simp only [decide_eq_true_eq]
      omega), takeWhile_replicate_zero, List.append_nil]

/-! ## Integer codec lemmas -/

theorem sint_two_encode (n : Int) (h1 : -32768 ≤ n) (h2 : n < 32768) :
    sint 2 (fromLE [((n % 65536).toNat) % 256, ((n % 65536).toNat) / 256 % 256]) = n := by
  simp only [fromLE, sint]
  norm_num
  split
  · omega
  · omega

theorem sint_four_encode (n : Int) (h1 : -2147483648 ≤ n) (h2 : n < 2147483648) :
    sint 4 (fromLE [((n % 4294967296).toNat) % 256, ((n % 4294967296).toNat) / 256 % 256,
      ((n % 4294967296).toNat) / 65536 % 256, ((n % 4294967296).toNat) / 16777216 % 256]) = n := by
  simp only [fromLE, sint]
  norm_num
  split
  · omega
  · omega

/-! ## structPack lemmas -/

theorem packOne_length (c : TypeCode) (a : Value) (b : List Nat)
    (h : packOne c a = Except.ok b) : b.length = width c := by
  cases c with
  | h =>
    cases a with
    | int n =>
      simp only [packOne] at h
      split at h
      · cases h
        rfl
      · cases h
    | str s => cases h
    | bytes b2 => cases h
  | i =>
    cases a with
    | int n =>
      simp only [packOne] at h
      split at h
      · cases h
        rfl
      · cases h
    | str s => cases h
    | bytes b2 => cases h
  | s n =>
    cases a with
    | int m => cases h
    | str s2 => cases h
    | bytes b2 =>
      simp only [packOne] at h
      cases h
      simp only [List.length_append, List.length_take, List.length_replicate, width]
      omega
  | x => cases h
  | empty => cases h
  | tnone => cases h
  | bad => cases h

theorem structPack_length (codes : List TypeCode) (args : List Value) (out : List Nat)
    (h : structPack codes args = Except.ok out) : out.length = widthSum codes := by
  induction codes generalizing args out with
  | nil =>
    cases args with
    | nil =>
      cases h
      rfl
    | cons a rest => cases h
  | cons c cs ih =>
    cases c with
    | x =>
      simp only [structPack, bind, Except.bind] at h
      cases hrest : structPack cs args with
      | ok out2 =>
        rw [hrest] at h
        cases h
        simp only [List.length_cons, widthSum, List.map_cons, List.sum_cons, width]
        have := ih args out2 hrest
        simp only [widthSum] at this
        omega
      | error e =>
        rw [hrest] at h
        cases h
    | h => ?_
    | i => ?_
    | s n => ?_
    | empty => ?_
    | tnone => ?_
    | bad => ?_
    all_goals
      cases args with
      | nil => cases h
      | cons a rest =>
        simp only [structPack, bind, Except.bind] at h
        cases hone : packOne _ a with
        | ok b =>
          rw [hone] at h
          cases hrest : structPack cs rest with
          | ok out2 =>
            rw [hrest] at h
            cases h
            simp only [List.length_append, widthSum, List.map_cons, List.sum_cons]
            rw [packOne_length _ a b hone, ih rest out2 hrest]
            rfl
          | error e =>
            rw [hrest] at h
            cases h
        | error e =>
          rw [hone] at h
          cases h

theorem take_append_of_length (b out2 : List Nat) (n : Nat) (hb : b.length = n) :
    (b ++ out2).take n = b := by
  rw [← hb, List.take_left]

theorem drop_append_of_length (b out2 : List Nat) (n : Nat) (hb : b.length = n) :
    (b ++ out2).drop n = out2 := by
  rw [← hb, List.drop_left]

theorem structUnpackLoop_structPack (codes : List TypeCode) (args : List Value)
    (out : List Nat) (h : structPack codes args = Except.ok out) :
    structUnpackLoop codes out = roundVals codes args := by
  induction codes generalizing args out with
  | nil =>
    cases args with
    | nil =>
      cases h
      rfl
    | cons a rest => cases h
  | cons c cs ih =>
    cases c with
    | x =>
      simp only [structPack, bind, Except.bind] at h
      cases hrest : structPack cs args with
      | ok out2 =>
        rw [hrest] at h
        cases h
        simp only [structUnpackLoop, List.drop_succ_cons, List.drop_zero, roundVals]
        exact ih args out2 hrest
      | error e =>
        rw [hrest] at h
        cases h
    | h =>
      cases args with
      | nil => cases h
      | cons a rest =>
        simp only [structPack, bind, Except.bind] at h
        cases hone : packOne TypeCode.h a with
        | error e =>
          rw [hone] at h
          cases h
        | ok b =>
          rw [hone] at h
          cases hrest : structPack cs rest with
          | error e =>
            rw [hrest] at h
            cases h
          | ok out2 =>
            rw [hrest] at h
            cases h
            cases a with
            | int n =>
              simp only [packOne] at hone
              split at hone
              · cases hone
                simp only [structUnpackLoop, roundVals, roundOne, List.cons.injEq]
                refine ⟨?_, ?_⟩
                · rw [take_append_of_length
                    [(n % 65536).toNat % 256, (n % 65536).toNat / 256 % 256] out2 2 rfl]
                  exact congrArg Value.int (sint_two_encode n (by omega) (by omega))
                · rw [drop_append_of_length
                    [(n % 65536).toNat % 256, (n % 65536).toNat / 256 % 256] out2 2 rfl]
                  exact ih rest out2 hrest
              · cases hone
            | str s2 => cases hone
            | bytes b2 => cases hone
    | i =>
      cases args with
      | nil => cases h
      | cons a rest =>
        simp only [structPack, bind, Except.bind] at h
        cases hone : packOne TypeCode.i a with
        | error e =>
          rw [hone] at h
          cases h
        | ok b =>
          rw [hone] at h
          cases hrest : structPack cs rest with
          | error e =>
            rw [hrest] at h
            cases h
          | ok out2 =>
            rw [hrest] at h
            cases h
            cases a with
            | int n =>
              simp only [packOne] at hone
              split at hone
              · cases hone
                simp only [structUnpackLoop, roundVals, roundOne, List.cons.injEq]
                refine ⟨?_, ?_⟩
                · rw [take_append_of_length
                    [(n % 4294967296).toNat % 256, (n % 4294967296).toNat / 256 % 256,
                      (n % 4294967296).toNat / 65536 % 256,
                      (n % 4294967296).toNat / 16777216 % 256] out2 4 rfl]
                  exact congrArg Value.int (sint_four_encode n (by omega) (by omega))
                · rw [drop_append_of_length
                    [(n % 4294967296).toNat % 256, (n % 4294967296).toNat / 256 % 256,
                      (n % 4294967296).toNat / 65536 % 256,
                      (n % 4294967296).toNat / 16777216 % 256] out2 4 rfl]
                  exact ih rest out2 hrest
              · cases hone
            | str s2 => cases hone
            | bytes b2 => cases hone
    | s n =>
      cases args with
      | nil => cases h
      | cons a rest =>
        simp only [structPack, bind, Except.bind] at h
        cases hone : packOne (TypeCode.s n) a with
        | error e =>
          rw [hone] at h
          cases h
        | ok b =>
          rw [hone] at h
          cases hrest : structPack cs rest with
          | error e =>
            rw [hrest] at h
            cases h
          | ok out2 =>
            rw [hrest] at h
            cases h
            cases a with
            | int m => cases hone
            | str s2 => cases hone
            | bytes b2 =>
              simp only [packOne] at hone
              cases hone
              have hlen : (b2.take n ++ List.replicate (n - b2.length) 0).length = n := by
                simp only [List.length_append, List.length_take, List.length_replicate]
                omega
              simp only [structUnpackLoop, roundVals, roundOne, List.cons.injEq]
              refine ⟨?_, ?_⟩
              · rw [take_append_of_length _ _ n hlen]
              · rw [drop_append_of_length _ _ n hlen]
                exact ih rest out2 hrest
    | empty =>
      cases args with
      | nil => cases h
      | cons a rest =>
        simp only [structPack, bind, Except.bind] at h
        cases a <;> cases h
    | tnone =>
      cases args with
      | nil => cases h
      | cons a rest =>
        simp only [structPack, bind, Except.bind] at h
        cases a <;> cases h
    | bad =>
      cases args with
      | nil => cases h
      | cons a rest =>
        simp only [structPack, bind, Except.bind] at h
        cases a <;> cases h

/-! ## Schema compilation lemmas -/

theorem compile_ok (fields : List Field) (sch : Schema)
    (h : compile fields = Except.ok sch) :
    sch.fields = fields ∧ sch.keys = nonXnames fields ∧
      sch.fmt = (fields.filter (fun f => truthy f.type)).map (fun f => f.type) ∧
      sch.size = widthSum sch.fmt := by
  unfold compile at h
  split at h
  · cases h
  · split at h
    · cases h
      exact ⟨rfl, rfl, rfl, rfl⟩
    · cases h

theorem compile_valid (fields : List Field) (sch : Schema)
    (h : compile fields = Except.ok sch) : ∀ c ∈ sch.fmt, codeValid c = true := by
  unfold compile at h
  split at h
  · cases h
  · split at h
    · cases h
      intro c hc
      next hall => exact List.all_eq_true.mp hall c hc
    · cases h

theorem hasS_false_of_hasX (t : TypeCode) (hx : hasX t = true) : hasS t = false := by
  cases t <;> simp_all [hasX, hasS]

theorem exists_s_of_hasS (t : TypeCode) (hs : hasS t = true) : ∃ n, t = TypeCode.s n := by
  cases t <;> simp_all [hasS]

theorem name_mem_nonXnames (fields : List Field) (f : Field) (hf : f ∈ fields)
    (hx : hasX f.type = false) : f.name ∈ nonXnames fields := by
  simp only [nonXnames, List.mem_map]
  exact ⟨f, List.mem_filter.mpr ⟨hf, by simp [hx]⟩, rfl⟩

theorem nonXnames_cons_nonx (g : Field) (rest : List Field) (hx : hasX g.type = false) :
    nonXnames (g :: rest) = g.name :: nonXnames rest := by
  simp [nonXnames, List.filter_cons, hx]

theorem nonXnames_cons_x (g : Field) (rest : List Field) (hx : hasX g.type = true) :
    nonXnames (g :: rest) = nonXnames rest := by
  simp [nonXnames, List.filter_cons, hx]

theorem wfNames_tail (g : Field) (rest : List Field) (hwf : wfNames (g :: rest)) :
    wfNames rest := by
  obtain ⟨hnames, hnd⟩ := hwf
  refine ⟨fun f hf => hnames f (List.mem_cons_of_mem g hf), ?_⟩
  cases hx : hasX g.type with
  | true => rwa [nonXnames_cons_x g rest hx] at hnd
  | false =>
    rw [nonXnames_cons_nonx g rest hx] at hnd
    exact hnd.of_cons

theorem filter_name_eq_single (fields : List Field) (f : Field) (hf : f ∈ fields)
    (hx : hasX f.type = false) (hwf : wfNames fields) :
    fields.filter (fun g => !hasX g.type && decide (g.name = f.name)) = [f] := by
  induction fields with
  | nil => simp at hf
  | cons g rest ih =>
    by_cases hg : f = g
    · subst hg
      rw [List.filter_cons, if_pos (by simp [hx])]
      have hrest : rest.filter (fun g => !hasX g.type && decide (g.name = f.name)) = [] := by
        rw [List.filter_eq_nil_iff]
        intro g2 hg2 hp
        simp only [Bool.and_eq_true, Bool.not_eq_true', decide_eq_true_eq] at hp
        have hmem2 : g2.name ∈ nonXnames rest := name_mem_nonXnames rest g2 hg2 hp.1
        have hnd := hwf.2
        rw [nonXnames_cons_nonx f rest hx] at hnd
        exact (List.nodup_cons.mp hnd).1 (hp.2 ▸ hmem2)
      rw [hrest]
    · have hfr : f ∈ rest := by
        rcases List.mem_cons.mp hf with hc | hc
        · exact absurd hc hg
        · exact hc
      have hgfail : ¬(!hasX g.type && decide (g.name = f.name)) = true := by
        intro hp
        simp only [Bool.and_eq_true, Bool.not_eq_true', decide_eq_true_eq] at hp
        have hnd := hwf.2
        rw [nonXnames_cons_nonx g rest hp.1] at hnd
        have hmem2 : f.name ∈ nonXnames rest := name_mem_nonXnames rest f hfr hx
        exact (List.nodup_cons.mp hnd).1 (hp.2 ▸ hmem2)
      rw [List.filter_cons, if_neg hgfail]
      exact ih hfr (wfNames_tail g rest hwf)

theorem propertyOf_self (fields : List Field) (f : Field) (hf : f ∈ fields)
    (hx : hasX f.type = false) (hwf : wfNames fields) :
    propertyOf fields f.name = some f := by
  unfold propertyOf
  rw [filter_name_eq_single fields f hf hx hwf]
  rfl

/-! ## pack lemmas -/

theorem buildPacks_eq (keys : List (Option String)) (vals : Values) (flds : List Field)
    (hmem : ∀ f ∈ flds, hasX f.type = false → f.name ∈ keys)
    (hxmem : ∀ f ∈ flds, hasX f.type = true → f.name ∉ keys)
    (hgood : goodVals flds vals) :
    buildPacks keys vals flds = Except.ok (fieldArgs vals flds) := by
  induction flds with
  | nil => rfl
  | cons f rest ih =>
    have ihr := ih (fun g hg hgx => hmem g (List.mem_cons_of_mem f hg) hgx)
      (fun g hg hgx => hxmem g (List.mem_cons_of_mem f hg) hgx)
      (fun g hg hgx => hgood g (List.mem_cons_of_mem f hg) hgx)
    cases hx : hasX f.type with
    | true =>
      have hs : hasS f.type = false := hasS_false_of_hasX f.type hx
      have hnotin := hxmem f (List.mem_cons_self f rest) hx
      unfold buildPacks
      rw [hs]
      simp only [Bool.false_eq_true, if_false]
      rw [if_neg hnotin]
      simp only [fieldArgs, hx, if_true]
      exact ihr
    | false =>
      have hg := hgood f (List.mem_cons_self f rest) hx
      cases hget : dictGet vals f.name with
      | none =>
        rw [hget] at hg
        cases hg
      | some v =>
        rw [hget] at hg
        cases hs : hasS f.type with
        | true =>
          obtain ⟨n, htype⟩ : ∃ n, f.type = TypeCode.s n := exists_s_of_hasS f.type hs
          rw [htype] at hg
          cases v with
          | int m => cases hg
          | bytes b => cases hg
          | str cs =>
            simp only [fitsB, Bool.and_eq_true, decide_eq_true_eq] at hg
            have hall : cs.all (fun c => decide (c < 256)) = true := by
              rw [List.all_eq_true]
              intro c hc
              have := List.all_eq_true.mp hg.2 c hc
              simp only [decide_eq_true_eq, Bool.and_eq_true] at this ⊢
              omega
            unfold buildPacks
            rw [hs]
            simp only [if_true, hget, zpad, hall, if_pos]
            simp only [bind, Except.bind, ihr]
            simp only [fieldArgs, hx, Bool.false_eq_true, if_false, hget, hs, if_true]
        | false =>
          have hin := hmem f (List.mem_cons_self f rest) hx
          unfold buildPacks
          rw [hs]
          simp only [Bool.false_eq_true, if_false]
          rw [if_pos hin, hget]
          simp only [bind, Except.bind, ihr]
          simp only [fieldArgs, hx, Bool.false_eq_true, if_false, hget, hs]

theorem structPack_fieldArgs (vals : Values) (flds : List Field)
    (hgood : goodVals flds vals) (hplain : plainTypes flds) :
    ∃ out, structPack (flds.map (fun f => f.type)) (fieldArgs vals flds) = Except.ok out := by
  induction flds with
  | nil => exact ⟨[], rfl⟩
  | cons f rest ih =>
    obtain ⟨out2, hout2⟩ := ih (fun g hg => hgood g (List.mem_cons_of_mem f hg))
      (fun g hg => hplain g (List.mem_cons_of_mem f hg))
    have hpl := hplain f (List.mem_cons_self f rest)
    cases htc : f.type with
    | x =>
      refine ⟨0 :: out2, ?_⟩
      have hx : hasX f.type = true := by rw [htc]; rfl
      simp only [List.map_cons, htc, structPack, bind, Except.bind]
      simp only [fieldArgs, hx, if_true]
      rw [hout2]
    | h =>
      have hx : hasX f.type = false := by rw [htc]; rfl
      have hg := hgood f (List.mem_cons_self f rest) hx
      cases hget : dictGet vals f.name with
      | none =>
        rw [hget] at hg
        cases hg
      | some v =>
        rw [hget] at hg
        rw [htc] at hg
        cases v with
        | str cs => cases hg
        | bytes b => cases hg
        | int n =>
          simp only [fitsB, decide_eq_true_eq] at hg
          refine ⟨[((n % 65536).toNat) % 256, ((n % 65536).toNat) / 256 % 256] ++ out2, ?_⟩
          have hsf : hasS f.type = false := by rw [htc]; rfl
          simp only [fieldArgs, hx, hsf, Bool.false_eq_true, if_false, hget, List.map_cons, htc]
          have hp : packOne TypeCode.h (Value.int n) =
              Except.ok [((n % 65536).toNat) % 256, ((n % 65536).toNat) / 256 % 256] := by
            simp only [packOne, if_pos hg]
          simp only [structPack, bind, Except.bind, ite_self, hp, hout2]
    | i =>
      have hx : hasX f.type = false := by rw [htc]; rfl
      have hg := hgood f (List.mem_cons_self f rest) hx
      cases hget : dictGet vals f.name with
      | none =>
        rw [hget] at hg
        cases hg
      | some v =>
        rw [hget] at hg
        rw [htc] at hg
        cases v with
        | str cs => cases hg
        | bytes b => cases hg
        | int n =>
          simp only [fitsB, decide_eq_true_eq] at hg
          refine ⟨[((n % 4294967296).toNat) % 256, ((n % 4294967296).toNat) / 256 % 256,
            ((n % 4294967296).toNat) / 65536 % 256, ((n % 4294967296).toNat) / 16777216 % 256]
            ++ out2, ?_⟩
          have hsf : hasS f.type = false := by rw [htc]; rfl
          simp only [fieldArgs, hx, hsf, Bool.false_eq_true, if_false, hget, List.map_cons, htc]
          have hp : packOne TypeCode.i (Value.int n) =
              Except.ok [((n % 4294967296).toNat) % 256, ((n % 4294967296).toNat) / 256 % 256,
                ((n % 4294967296).toNat) / 65536 % 256, ((n % 4294967296).toNat) / 16777216 % 256] := by
            simp only [packOne, if_pos hg]
          simp only [structPack, bind, Except.bind, ite_self, hp, hout2]
    | s n =>
      have hx : hasX f.type = false := by rw [htc]; rfl
      have hg := hgood f (List.mem_cons_self f rest) hx
      cases hget : dictGet vals f.name with
      | none =>
        rw [hget] at hg
        cases hg
      | some v =>
        rw [hget] at hg
        rw [htc] at hg
        cases v with
        | int m => cases hg
        | bytes b => cases hg
        | str cs =>
          have hsf : hasS f.type = true := by rw [htc]; rfl
          refine ⟨((cs.take 8 ++ List.replicate (8 - cs.length) 0).take n ++
            List.replicate (n - (cs.take 8 ++ List.replicate (8 - cs.length) 0).length) 0)
            ++ out2, ?_⟩
          simp only [fieldArgs, hx, hsf, Bool.false_eq_true, if_false, if_true, hget,
            List.map_cons, htc]
          rw [if_pos (show hasS (TypeCode.s n) = true from rfl)]
          have hp : packOne (TypeCode.s n)
              (Value.bytes (cs.take 8 ++ List.replicate (8 - cs.length) 0)) =
              Except.ok ((cs.take 8 ++ List.replicate (8 - cs.length) 0).take n ++
                List.replicate (n - (cs.take 8 ++ List.replicate (8 - cs.length) 0).length) 0) := rfl
          simp only [structPack, bind, Except.bind, hp, hout2]
    | empty => exact absurd htc hpl.1
    | tnone => exact absurd htc hpl.2.1
    | bad => exact absurd htc hpl.2.2

theorem chunk_eq (cs : List Nat) (n : Nat) (h8 : cs.length ≤ 8) (hn : cs.length ≤ n) :
    (cs.take 8 ++ List.replicate (8 - cs.length) 0).take n ++
      List.replicate (n - (cs.take 8 ++ List.replicate (8 - cs.length) 0).length) 0 =
      cs ++ List.replicate (n - cs.length) 0 := by
  rw [List.take_of_length_le h8]
  have hlen8 : (cs ++ List.replicate (8 - cs.length) 0).length = 8 := by
    simp only [List.length_append, List.length_replicate]
    omega
  rw [hlen8, List.take_append_eq_append_take, List.take_of_length_le hn,
    List.take_replicate, List.append_assoc, ← List.replicate_add]
  refine congrArg (fun m => cs ++ List.replicate m 0) ?_
  omega

theorem zstrip_bytes_clean (cs : List Nat) (m : Nat)
    (hs : ∀ c ∈ cs, 0 < c ∧ c < 128) :
    zstrip (.bytes (cs ++ List.replicate m 0)) = Except.ok (.str cs) := by
  simp only [zstrip, Except.ok.injEq, Value.str.injEq]
  have hfilter : (cs ++ List.replicate m 0).filter (fun c => decide (c < 128)) =
      cs ++ List.replicate m 0 := by
    refine filter_all_true _ (fun c hc => ?_)
    rcases List.mem_append.mp hc with hc2 | hc2
    · simp only [decide_eq_true_eq]
      exact (hs c hc2).2
    · have := List.eq_of_mem_replicate hc2
      simp [this]
  rw [hfilter, takeWhile_append_all _ _ (fun c hc => by
    have := (hs c hc).1
    simp only [decide_eq_true_eq]
    omega), takeWhile_replicate_zero, List.append_nil]

/-! ## Unfolding helpers -/

theorem fieldArgs_cons_x (vals : Values) (f : Field) (rest : List Field)
    (hx : hasX f.type = true) : fieldArgs vals (f :: rest) = fieldArgs vals rest := by
  simp only [fieldArgs, hx, if_true]

theorem fieldArgs_cons_nonstr (vals : Values) (f : Field) (rest : List Field) (v : Value)
    (hx : hasX f.type = false) (hsf : hasS f.type = false)
    (hget : dictGet vals f.name = some v) :
    fieldArgs vals (f :: rest) = v :: fieldArgs vals rest := by
  simp only [fieldArgs, hx, Bool.false_eq_true, if_false, hget, hsf]

theorem fieldArgs_cons_str (vals : Values) (f : Field) (rest : List Field) (cs : List Nat)
    (hx : hasX f.type = false) (hsf : hasS f.type = true)
    (hget : dictGet vals f.name = some (Value.str cs)) :
    fieldArgs vals (f :: rest) =
      Value.bytes (cs.take 8 ++ List.replicate (8 - cs.length) 0) :: fieldArgs vals rest := by
  simp only [fieldArgs, hx, Bool.false_eq_true, if_false, hget, hsf, if_true]

theorem storeVal_nonstr (t : TypeCode) (v : Value) (hsf : hasS t = false) :
    storeVal t v = Except.ok v := by
  simp [storeVal, hsf]

theorem storeVal_str (t : TypeCode) (v : Value) (hsf : hasS t = true) :
    storeVal t v = zstrip v := by
  simp [storeVal, hsf]

theorem setAttr_eq (sch : Schema) (vals : Values) (k : Option String) (v : Value)
    (f : Field) (v2 : Value) (hprop : propertyOf sch.fields k = some f)
    (hstore : storeVal f.type v = Except.ok v2) :
    setAttr sch vals k v = Except.ok (dictUpdate vals k v2) := by
  simp only [setAttr, hprop, bind, Except.bind, hstore]

theorem setterFold_cons_ok (sch : Schema) (d : Values) (k : Option String) (v : Value)
    (ps : List (Option String × Value)) (d2 : Values)
    (hset : setAttr sch d k v = Except.ok d2) :
    setterFold sch d ((k, v) :: ps) = setterFold sch d2 ps := by
  simp only [setterFold, hset]

/-! ## The unpack-of-pack setter loop -/

theorem setterFold_roundtrip (sch : Schema) (vals : Values) : ∀ (flds : List Field) (d : Values),
    (∀ f ∈ flds, hasX f.type = false → propertyOf sch.fields f.name = some f) →
    goodVals flds vals → plainTypes flds →
    (∀ k, dictGet d k = dictGet vals k) →
    ∃ d2, setterFold sch d ((nonXnames flds).zip
        (roundVals (flds.map (fun f => f.type)) (fieldArgs vals flds))) = (d2, none) ∧
      ∀ k, dictGet d2 k = dictGet vals k := by
  intro flds
  induction flds with
  | nil => exact fun d _ _ _ hagree => ⟨d, rfl, hagree⟩
  | cons f rest ih =>
    intro d hprop hgood hplain hagree
    have hpropR := fun g hg => hprop g (List.mem_cons_of_mem f hg)
    have hgoodR : goodVals rest vals := fun g hg => hgood g (List.mem_cons_of_mem f hg)
    have hplainR : plainTypes rest := fun g hg => hplain g (List.mem_cons_of_mem f hg)
    have hpl := hplain f (List.mem_cons_self f rest)
    cases htc : f.type with
    | x =>
      have hx : hasX f.type = true := by rw [htc]; rfl
      rw [nonXnames_cons_x f rest hx, fieldArgs_cons_x vals f rest hx, List.map_cons, htc]
      have hr : roundVals (TypeCode.x :: rest.map (fun f => f.type)) (fieldArgs vals rest) =
          roundVals (rest.map (fun f => f.type)) (fieldArgs vals rest) := by
        simp only [roundVals]
      rw [hr]
      exact ih d hpropR hgoodR hplainR hagree
    | h =>
      have hx : hasX f.type = false := by rw [htc]; rfl
      have hg := hgood f (List.mem_cons_self f rest) hx
      cases hget : dictGet vals f.name with
      | none =>
        rw [hget] at hg
        cases hg
      | some v =>
        rw [hget, htc] at hg
        cases v with
        | str cs => cases hg
        | bytes b => cases hg
        | int n =>
          have hsf : hasS f.type = false := by rw [htc]; rfl
          rw [nonXnames_cons_nonx f rest hx,
            fieldArgs_cons_nonstr vals f rest (Value.int n) hx hsf hget, List.map_cons, htc]
          have hset := setAttr_eq sch d f.name (Value.int n) f (Value.int n)
            (hprop f (List.mem_cons_self f rest) hx) (storeVal_nonstr f.type (Value.int n) hsf)
          have hr : roundVals (TypeCode.h :: rest.map (fun f => f.type))
              (Value.int n :: fieldArgs vals rest) =
              Value.int n :: roundVals (rest.map (fun f => f.type)) (fieldArgs vals rest) := rfl
          rw [hr, List.zip_cons_cons, setterFold_cons_ok sch d f.name (Value.int n) _ _ hset]
          refine ih (dictUpdate d f.name (Value.int n)) hpropR hgoodR hplainR (fun k => ?_)
          rw [dictGet_update]
          by_cases hk : k = f.name
          · rw [if_pos hk, hk, hget]
          · rw [if_neg hk]
            exact hagree k
    | i =>
      have hx : hasX f.type = false := by rw [htc]; rfl
      have hg := hgood f (List.mem_cons_self f rest) hx
      cases hget : dictGet vals f.name with
      | none =>
        rw [hget] at hg
        cases hg
      | some v =>
        rw [hget, htc] at hg
        cases v with
        | str cs => cases hg
        | bytes b => cases hg
        | int n =>
          have hsf : hasS f.type = false := by rw [htc]; rfl
          rw [nonXnames_cons_nonx f rest hx,
            fieldArgs_cons_nonstr vals f rest (Value.int n) hx hsf hget, List.map_cons, htc]
          have hset := setAttr_eq sch d f.name (Value.int n) f (Value.int n)
            (hprop f (List.mem_cons_self f rest) hx) (storeVal_nonstr f.type (Value.int n) hsf)
          have hr : roundVals (TypeCode.i :: rest.map (fun f => f.type))
              (Value.int n :: fieldArgs vals rest) =
              Value.int n :: roundVals (rest.map (fun f => f.type)) (fieldArgs vals rest) := rfl
          rw [hr, List.zip_cons_cons, setterFold_cons_ok sch d f.name (Value.int n) _ _ hset]
          refine ih (dictUpdate d f.name (Value.int n)) hpropR hgoodR hplainR (fun k => ?_)
          rw [dictGet_update]
          by_cases hk : k = f.name
          · rw [if_pos hk, hk, hget]
          · rw [if_neg hk]
            exact hagree k
    | s n =>
      have hx : hasX f.type = false := by rw [htc]; rfl
      have hg := hgood f (List.mem_cons_self f rest) hx
      cases hget : dictGet vals f.name with
      | none =>
        rw [hget] at hg
        cases hg
      | some v =>
        rw [hget, htc] at hg
        cases v with
        | int m => cases hg
        | bytes b => cases hg
        | str cs =>
          simp only [fitsB, Bool.and_eq_true, decide_eq_true_eq] at hg
          have hchars : ∀ c ∈ cs, 0 < c ∧ c < 128 := by
            intro c hc
            have := List.all_eq_true.mp hg.2 c hc
            simp only [Bool.and_eq_true, decide_eq_true_eq] at this
            exact this
          have hsf : hasS f.type = true := by rw [htc]; rfl
          rw [nonXnames_cons_nonx f rest hx,
            fieldArgs_cons_str vals f rest cs hx hsf hget, List.map_cons, htc]
          have hround : roundVals (TypeCode.s n :: rest.map (fun f => f.type))
              (Value.bytes (cs.take 8 ++ List.replicate (8 - cs.length) 0) :: fieldArgs vals rest) =
              Value.bytes (cs ++ List.replicate (n - cs.length) 0) ::
                roundVals (rest.map (fun f => f.type)) (fieldArgs vals rest) := by
            have h1 : roundVals (TypeCode.s n :: rest.map (fun f => f.type))
                (Value.bytes (cs.take 8 ++ List.replicate (8 - cs.length) 0) :: fieldArgs vals rest) =
                roundOne (TypeCode.s n)
                  (Value.bytes (cs.take 8 ++ List.replicate (8 - cs.length) 0)) ::
                  roundVals (rest.map (fun f => f.type)) (fieldArgs vals rest) := rfl
            rw [h1]
            simp only [roundOne]
            rw [chunk_eq cs n hg.1.1 hg.1.2]
          rw [hround, List.zip_cons_cons]
          have hstore : storeVal f.type (Value.bytes (cs ++ List.replicate (n - cs.length) 0)) =
              Except.ok (Value.str cs) := by
            rw [storeVal_str f.type _ hsf]
            exact zstrip_bytes_clean cs (n - cs.length) hchars
          have hset := setAttr_eq sch d f.name _ f (Value.str cs)
            (hprop f (List.mem_cons_self f rest) hx) hstore
          rw [setterFold_cons_ok sch d f.name _ _ _ hset]
          refine ih (dictUpdate d f.name (Value.str cs)) hpropR hgoodR hplainR (fun k => ?_)
          rw [dictGet_update]
          by_cases hk : k = f.name
          · rw [if_pos hk, hk, hget]
          · rw [if_neg hk]
            exact hagree k
    | empty => exact absurd htc hpl.1
    | tnone => exact absurd htc hpl.2.1
    | bad => exact absurd htc hpl.2.2

theorem setterFold_any_data (sch : Schema) : ∀ (flds : List Field) (d : Values) (data : List Nat),
    (∀ f ∈ flds, hasX f.type = false → propertyOf sch.fields f.name = some f) →
    plainTypes flds →
    ∃ d2, setterFold sch d ((nonXnames flds).zip
        (structUnpackLoop (flds.map (fun f => f.type)) data)) = (d2, none) := by
  intro flds
  induction flds with
  | nil => exact fun d data _ _ => ⟨d, rfl⟩
  | cons f rest ih =>
    intro d data hprop hplain
    have hpropR := fun g hg => hprop g (List.mem_cons_of_mem f hg)
    have hplainR : plainTypes rest := fun g hg => hplain g (List.mem_cons_of_mem f hg)
    have hpl := hplain f (List.mem_cons_self f rest)
    cases htc : f.type with
    | x =>
      have hx : hasX f.type = true := by rw [htc]; rfl
      rw [nonXnames_cons_x f rest hx, List.map_cons, htc]
      have hr : structUnpackLoop (TypeCode.x :: rest.map (fun f => f.type)) data =
          structUnpackLoop (rest.map (fun f => f.type)) (data.drop 1) := by
        simp only [structUnpackLoop]
      rw [hr]
      exact ih d (data.drop 1) hpropR hplainR
    | h =>
      have hx : hasX f.type = false := by rw [htc]; rfl
      rw [nonXnames_cons_nonx f rest hx, List.map_cons, htc]
      have hr : structUnpackLoop (TypeCode.h :: rest.map (fun f => f.type)) data =
          Value.int (sint 2 (fromLE (data.take 2))) ::
            structUnpackLoop (rest.map (fun f => f.type)) (data.drop 2) := by
        simp only [structUnpackLoop]
      rw [hr, List.zip_cons_cons]
      have hset := setAttr_eq sch d f.name (Value.int (sint 2 (fromLE (data.take 2)))) f
        (Value.int (sint 2 (fromLE (data.take 2))))
        (hprop f (List.mem_cons_self f rest) hx)
        (storeVal_nonstr f.type _ (by rw [htc]; rfl))
      rw [setterFold_cons_ok sch d f.name _ _ _ hset]
      exact ih _ (data.drop 2) hpropR hplainR
    | i =>
      have hx : hasX f.type = false := by rw [htc]; rfl
      rw [nonXnames_cons_nonx f rest hx, List.map_cons, htc]
      have hr : structUnpackLoop (TypeCode.i :: rest.map (fun f => f.type)) data =
          Value.int (sint 4 (fromLE (data.take 4))) ::
            structUnpackLoop (rest.map (fun f => f.type)) (data.drop 4) := by
        simp only [structUnpackLoop]
      rw [hr, List.zip_cons_cons]
      have hset := setAttr_eq sch d f.name (Value.int (sint 4 (fromLE (data.take 4)))) f
        (Value.int (sint 4 (fromLE (data.take 4))))
        (hprop f (List.mem_cons_self f rest) hx)
        (storeVal_nonstr f.type _ (by rw [htc]; rfl))
      rw [setterFold_cons_ok sch d f.name _ _ _ hset]
      exact ih _ (data.drop 4) hpropR hplainR
    | s n =>
      have hx : hasX f.type = false := by rw [htc]; rfl
      rw [nonXnames_cons_nonx f rest hx, List.map_cons, htc]
      have hr : structUnpackLoop (TypeCode.s n :: rest.map (fun f => f.type)) data =
          Value.bytes (data.take n) ::
            structUnpackLoop (rest.map (fun f => f.type)) (data.drop n) := by
        simp only [structUnpackLoop]
      rw [hr, List.zip_cons_cons]
      have hstore : storeVal f.type (Value.bytes (data.take n)) =
          Except.ok (Value.str (((data.take n).filter (fun c => c < 128)).takeWhile
            (fun c => c ≠ 0))) := by
        rw [storeVal_str f.type _ (by rw [htc]; rfl)]
        rfl
      have hset := setAttr_eq sch d f.name (Value.bytes (data.take n)) f _
        (hprop f (List.mem_cons_self f rest) hx) hstore
      rw [setterFold_cons_ok sch d f.name _ _ _ hset]
      exact ih _ (data.drop n) hpropR hplainR
    | empty => exact absurd htc hpl.1
    | tnone => exact absurd htc hpl.2.1
    | bad => exact absurd htc hpl.2.2

/-! ## Bridging lemmas -/

theorem fmt_eq_of_plain (fields : List Field) (hplain : plainTypes fields) :
    (fields.filter (fun f => truthy f.type)).map (fun f => f.type) =
      fields.map (fun f => f.type) := by
  have : fields.filter (fun f => truthy f.type) = fields := by
    rw [List.filter_eq_self]
    intro f hf
    obtain ⟨h1, h2, _⟩ := hplain f hf
    cases htc : f.type <;> simp_all [truthy]
  rw [this]

theorem none_not_mem_nonXnames (fields : List Field) (hwf : wfNames fields) :
    none ∉ nonXnames fields := by
  intro hmem
  simp only [nonXnames, List.mem_map] at hmem
  obtain ⟨g, hg, hgname⟩ := hmem
  obtain ⟨hgmem, hgx⟩ := List.mem_filter.mp hg
  have hgx2 : hasX g.type = false := by simpa using hgx
  have := hwf.1 g hgmem
  rw [if_neg (by simp [hgx2])] at this
  exact this hgname

theorem packInstance_inv (inst : Instance) (out : List Nat)
    (h : packInstance inst = Except.ok out) :
    ∃ packs, buildPacks inst.schema.keys inst.values inst.schema.fields = Except.ok packs ∧
      structPack inst.schema.fmt packs = Except.ok out := by
  unfold packInstance at h
  cases hbp : buildPacks inst.schema.keys inst.values inst.schema.fields with
  | ok packs =>
    rw [hbp] at h
    simp only [bind, Except.bind] at h
    exact ⟨packs, rfl, h⟩
  | error e =>
    rw [hbp] at h
    simp only [bind, Except.bind] at h
    cases h

/-- C4: whenever `pack` succeeds on an instance of a compiled record type,
the output buffer has exactly the type's compiled byte size, whatever the
current field values are. -/
theorem C4_pack_length (fields : List Field) (sch : Schema) (inst : Instance)
    (out : List Nat) (hc : compile fields = Except.ok sch) (hs : inst.schema = sch)
    (hpack : packInstance inst = Except.ok out) : out.length = sch.size := by
  obtain ⟨packs, hbp, hsp⟩ := packInstance_inv inst out hpack
  rw [hs] at hsp
  obtain ⟨_, _, _, hsize⟩ := compile_ok fields sch hc
  rw [hsize]
  exact structPack_length sch.fmt packs out hsp

/-- C1 (amended): for a compiled record type with well-formed names, no
virtual fields, and stored values that fit their codes (in-range integers,
NUL-free ASCII strings short enough for their width and the 8-byte pad),
`unpack(pack(r))` succeeds and restores every field value exactly. -/
theorem C1_roundtrip_amended (fields : List Field) (sch : Schema) (inst : Instance)
    (hc : compile fields = Except.ok sch) (hs : inst.schema = sch)
    (hwf : wfNames fields) (hplain : plainTypes fields)
    (hgood : goodVals fields inst.values) :
    ∃ out inst2, packInstance inst = Except.ok out ∧
      unpackInstance inst out = Except.ok inst2 ∧ inst2.schema = inst.schema ∧
      ∀ k, dictGet inst2.values k = dictGet inst.values k := by
  obtain ⟨hf, hkeys, hfmt, hsize⟩ := compile_ok fields sch hc
  have hfmt2 : sch.fmt = fields.map (fun f => f.type) := by
    rw [hfmt, fmt_eq_of_plain fields hplain]
  have hbp : buildPacks sch.keys inst.values fields =
      Except.ok (fieldArgs inst.values fields) := by
    refine buildPacks_eq sch.keys inst.values fields ?_ ?_ hgood
    · intro f hfmem hfx
      rw [hkeys]
      exact name_mem_nonXnames fields f hfmem hfx
    · intro f hfmem hfx
      rw [hkeys]
      have hnone := hwf.1 f hfmem
      rw [if_pos (by simp [hfx])] at hnone
      rw [hnone]
      exact none_not_mem_nonXnames fields hwf
  obtain ⟨out, hout⟩ := structPack_fieldArgs inst.values fields hgood hplain
  have hpack : packInstance inst = Except.ok out := by
    unfold packInstance
    rw [hs, hf, hbp]
    simp only [bind, Except.bind]
    rw [hfmt2]
    exact hout
  have hlen : out.length = widthSum sch.fmt := by
    rw [hfmt2]
    exact structPack_length _ _ _ hout
  have hdec : structUnpackLoop sch.fmt out =
      roundVals (fields.map (fun f => f.type)) (fieldArgs inst.values fields) := by
    rw [hfmt2]
    exact structUnpackLoop_structPack _ _ _ hout
  have hprop : ∀ f ∈ fields, hasX f.type = false →
      propertyOf sch.fields f.name = some f := by
    intro f hfmem hfx
    rw [hf]
    exact propertyOf_self fields f hfmem hfx hwf
  obtain ⟨d2, hfold, hagree⟩ := setterFold_roundtrip sch inst.values fields inst.values
    hprop hgood hplain (fun k => rfl)
  refine ⟨out, ⟨inst.schema, d2⟩, hpack, ?_, rfl, hagree⟩
  unfold unpackInstance unpackMut
  rw [hs]
  unfold structUnpack
  rw [if_pos (by rw [hlen]), hdec, hkeys]
  simp only [hfold]

/-- C6 (amended): for a compiled record type with well-formed names and no
virtual fields, `unpack` on a buffer of the wrong length fails with the
size-mismatch error, and on a buffer of exactly `size` bytes it succeeds,
decoding stored fields in declaration order through their setters. -/
theorem C6_unpack_amended (fields : List Field) (sch : Schema) (inst : Instance)
    (data : List Nat) (hc : compile fields = Except.ok sch) (hs : inst.schema = sch)
    (hwf : wfNames fields) (hplain : plainTypes fields) :
    (data.length ≠ sch.size → unpackInstance inst data = Except.error (sizeErr sch.size)) ∧
    (data.length = sch.size → ∃ inst2, unpackInstance inst data = Except.ok inst2) := by
  obtain ⟨hf, hkeys, hfmt, hsize⟩ := compile_ok fields sch hc
  constructor
  · intro hlen
    unfold unpackInstance unpackMut structUnpack
    rw [hs, if_neg (by rw [← hsize]; exact hlen), ← hsize]
  · intro hlen
    have hprop : ∀ f ∈ fields, hasX f.type = false →
        propertyOf sch.fields f.name = some f := by
      intro f hfmem hfx
      rw [hf]
      exact propertyOf_self fields f hfmem hfx hwf
    obtain ⟨d2, hfold⟩ := setterFold_any_data sch fields inst.values data hprop hplain
    refine ⟨⟨sch, d2⟩, ?_⟩
    unfold unpackInstance unpackMut structUnpack
    rw [hs, if_pos (by rw [← hsize]; exact hlen), hkeys]
    have hfmt2 : sch.fmt = fields.map (fun f => f.type) := by
      rw [hfmt, fmt_eq_of_plain fields hplain]
    rw [hfmt2]
    simp only [hfold]

/-- C9: calling `unpack` with a buffer whose length differs from the type's
size raises the size error inside `struct.unpack`, before any field setter
runs, so the instance's `_values` dict is unchanged by the failed call. -/
theorem C9_unpack_atomic (fields : List Field) (sch : Schema) (inst : Instance)
    (data : List Nat) (hc : compile fields = Except.ok sch) (hs : inst.schema = sch)
    (hlen : data.length ≠ sch.size) :
    unpackMut inst data = (inst.values, some (sizeErr sch.size)) := by
  obtain ⟨_, _, _, hsize⟩ := compile_ok fields sch hc
  unfold unpackMut structUnpack
  rw [hs, if_neg (by rw [← hsize]; exact hlen), ← hsize]

/-- C8: a field list containing an unsupported struct format code fails at
schema compilation (class creation) with a definition error; no record type
and hence no `pack`/`unpack` call can exist for it. -/
theorem C8_bad_code (fields : List Field)
    (hbad : ∃ f ∈ fields, f.type = TypeCode.bad) :
    ∃ e, compile fields = Except.error e := by
  obtain ⟨f, hf, htc⟩ := hbad
  unfold compile
  split
  · exact ⟨"TypeError", rfl⟩
  · split
    · next hall =>
      exfalso
      have hmem : f.type ∈ (fields.filter (fun g => truthy g.type)).map (fun g => g.type) :=
        List.mem_map.mpr ⟨f, List.mem_filter.mpr ⟨hf, by rw [htc]; rfl⟩, rfl⟩
      have := List.all_eq_true.mp hall _ hmem
      rw [htc] at this
      cases this
    · exact ⟨"struct.error", rfl⟩

/-- C5 (amended): an over-long string is truncated to 8 bytes and a short
one zero-padded to 8, and `strip(pad(s)) = s` holds for NUL-free ASCII
strings of length at most 8 (it fails for strings containing NUL or
non-ASCII characters, see the counterexample). -/
theorem C5_strip_pad_amended (s : List Nat) (hall : s.all (fun c => c < 256) = true) :
    (∃ b, zpad (Value.str s) = Except.ok b ∧ b.length = 8 ∧
      (8 ≤ s.length → b = s.take 8) ∧
      (s.length ≤ 8 → b = s ++ List.replicate (8 - s.length) 0)) ∧
    (s.length ≤ 8 → (∀ c ∈ s, 0 < c ∧ c < 128) →
      ∃ b, zpad (Value.str s) = Except.ok b ∧
        zstrip (Value.bytes b) = Except.ok (Value.str s)) := by
  constructor
  · refine ⟨s.take 8 ++ List.replicate (8 - s.length) 0, ?_, ?_, ?_, ?_⟩
    · simp [zpad, hall]
    · simp only [List.length_append, List.length_take, List.length_replicate]
      omega
    · intro h8
      have : 8 - s.length = 0 := by omega
      rw [this]
      simp
    · intro h8
      rw [List.take_of_length_le h8]
  · intro h8 hchars
    exact zstrip_zpad s h8 hchars

/-! ## String NUL invariant -/

theorem hasX_false_of_hasS (t : TypeCode) (hst : hasS t = true) : hasX t = false := by
  cases t <;> simp_all [hasS, hasX]

theorem noNul_takeWhile (l : List Nat) :
    noNul (Value.str (l.takeWhile (fun c => c ≠ 0))) = true := by
  simp only [noNul]
  cases hc : (l.takeWhile (fun c => decide (c ≠ 0))).contains 0
  · rfl
  · exfalso
    have hmem : (0 : Nat) ∈ l.takeWhile (fun c => decide (c ≠ 0)) :=
      List.mem_of_elem_eq_true hc
    exact mem_takeWhile_ne_zero l 0 hmem rfl

theorem zstrip_noNul (v v2 : Value) (h : zstrip v = Except.ok v2) : noNul v2 = true := by
  cases v with
  | int n => cases h
  | str s =>
    cases h
    exact noNul_takeWhile s
  | bytes b =>
    cases h
    exact noNul_takeWhile _

theorem setAttr_strInv (fields : List Field) (sch : Schema) (vals vals2 : Values)
    (k : Option String) (v : Value) (hf : sch.fields = fields) (hwf : wfNames fields)
    (hinv : strInvB fields vals = true) (h : setAttr sch vals k v = Except.ok vals2) :
    strInvB fields vals2 = true := by
  unfold setAttr at h
  cases hp : propertyOf sch.fields k with
  | none =>
    rw [hp] at h
    cases h
  | some g =>
    rw [hp] at h
    simp only [bind, Except.bind] at h
    cases hst : storeVal g.type v with
    | error e =>
      rw [hst] at h
      cases h
    | ok v2 =>
      rw [hst] at h
      cases h
      rw [strInvB, List.all_eq_true] at hinv ⊢
      intro f hfmem
      have hinvf := hinv f hfmem
      cases hsf : hasS f.type with
      | false => simp [hsf]
      | true =>
        simp only [hsf, Bool.not_true, Bool.false_or] at hinvf ⊢
        rw [dictGet_update]
        by_cases hk : f.name = k
        · rw [if_pos hk]
          have hfx : hasX f.type = false := hasX_false_of_hasS f.type hsf
          have hpf : propertyOf sch.fields f.name = some f := by
            rw [hf]
            exact propertyOf_self fields f hfmem hfx hwf
          rw [hk] at hpf
          rw [hpf] at hp
          injection hp with hp2
          rw [← hp2] at hst
          rw [storeVal_str f.type v hsf] at hst
          exact zstrip_noNul v v2 hst
        · rw [if_neg hk]
          exact hinvf

theorem assignArgs_strInv (fields : List Field) (sch : Schema) (hf : sch.fields = fields)
    (hwf : wfNames fields) : ∀ (ps : Values) (vals vals2 : Values),
    strInvB fields vals = true → assignArgs sch vals ps = Except.ok vals2 →
    strInvB fields vals2 = true := by
  intro ps
  induction ps with
  | nil =>
    intro vals vals2 hinv h
    cases h
    exact hinv
  | cons p rest ih =>
    intro vals vals2 hinv h
    obtain ⟨k, v⟩ := p
    unfold assignArgs at h
    by_cases hk : k ∈ sch.keys
    · rw [if_pos hk] at h
      simp only [bind, Except.bind] at h
      cases hset : setAttr sch vals k v with
      | error e =>
        rw [hset] at h
        cases h
      | ok vals3 =>
        rw [hset] at h
        exact ih vals3 vals2 (setAttr_strInv fields sch vals vals3 k v hf hwf hinv hset) h
    · rw [if_neg hk] at h
      exact ih vals vals2 hinv h

theorem setterFold_strInv (fields : List Field) (sch : Schema) (hf : sch.fields = fields)
    (hwf : wfNames fields) : ∀ (ps : List (Option String × Value)) (vals : Values),
    strInvB fields vals = true → strInvB fields (setterFold sch vals ps).1 = true := by
  intro ps
  induction ps with
  | nil => exact fun vals hinv => hinv
  | cons p rest ih =>
    intro vals hinv
    obtain ⟨k, v⟩ := p
    unfold setterFold
    cases hset : setAttr sch vals k v with
    | error e => exact hinv
    | ok vals2 => exact ih vals2 (setAttr_strInv fields sch vals vals2 k v hf hwf hinv hset)

theorem lastVal_none (ps : List (Option String × Value)) (k : Option String)
    (h : ∀ p ∈ ps, p.1 ≠ k) : lastVal ps k = none := by
  induction ps with
  | nil => rfl
  | cons p rest ih =>
    simp only [lastVal, ih (fun q hq => h q (List.mem_cons_of_mem p hq))]
    rw [if_neg (h p (List.mem_cons_self p rest))]

theorem lastVal_defaults (fields : List Field) (f : Field) (hf : f ∈ fields)
    (hx : hasX f.type = false) (hwf : wfNames fields) :
    lastVal (fields.map (fun g => (g.name, g.default))) f.name = some f.default := by
  induction fields with
  | nil => simp at hf
  | cons g rest ih =>
    have hfname : f.name ≠ none := by
      have := hwf.1 f hf
      rw [if_neg (by simp [hx])] at this
      exact this
    by_cases hfg : f = g
    · subst hfg
      have hnone : ∀ p ∈ rest.map (fun g => (g.name, g.default)), p.1 ≠ f.name := by
        intro p hp
        obtain ⟨g2, hg2, hg2p⟩ := List.mem_map.mp hp
        rw [← hg2p]
        intro hcontra
        cases hg2x : hasX g2.type with
        | true =>
          have := hwf.1 g2 (List.mem_cons_of_mem f hg2)
          rw [if_pos (by simp [hg2x])] at this
          exact hfname (hcontra ▸ this)
        | false =>
          have hnd := hwf.2
          rw [nonXnames_cons_nonx f rest hx] at hnd
          have hmem2 : g2.name ∈ nonXnames rest := name_mem_nonXnames rest g2 hg2 hg2x
          exact (List.nodup_cons.mp hnd).1 (hcontra ▸ hmem2)
      simp only [List.map_cons, lastVal, lastVal_none _ _ hnone]
      simp
    · have hfr : f ∈ rest := by
        rcases List.mem_cons.mp hf with hc | hc
        · exact absurd hc hfg
        · exact hc
      simp only [List.map_cons, lastVal, ih hfr (wfNames_tail g rest hwf)]

theorem mkDefaults_strInv (fields : List Field) (hwf : wfNames fields)
    (hdef : ∀ f ∈ fields, hasS f.type = true → noNul f.default = true) :
    strInvB fields (mkDefaults fields) = true := by
  rw [strInvB, List.all_eq_true]
  intro f hfmem
  cases hsf : hasS f.type with
  | false => simp [hsf]
  | true =>
    simp only [hsf, Bool.not_true, Bool.false_or]
    rw [dictGet_mkDefaults,
      lastVal_defaults fields f hfmem (hasX_false_of_hasS f.type hsf) hwf]
    exact hdef f hfmem hsf

/-- C10: provided every string-typed field's declared default is NUL-free,
construction from values, any single setter assignment, and `unpack` each
preserve the invariant that every string-typed field's stored value
contains no NUL byte (the generated setter strips from the first NUL on
every write). -/
theorem C10_string_invariant (fields : List Field) (sch : Schema)
    (hc : compile fields = Except.ok sch) (hwf : wfNames fields)
    (hdef : ∀ f ∈ fields, hasS f.type = true → noNul f.default = true) :
    (∀ args kwargs inst, initFromValues sch args kwargs = Except.ok inst →
      strInvB fields inst.values = true) ∧
    (∀ vals k v vals2, strInvB fields vals = true →
      setAttr sch vals k v = Except.ok vals2 → strInvB fields vals2 = true) ∧
    (∀ inst data inst2, inst.schema = sch → strInvB fields inst.values = true →
      unpackInstance inst data = Except.ok inst2 → strInvB fields inst2.values = true) := by
  have hf : sch.fields = fields := (compile_ok fields sch hc).1
  refine ⟨?_, ?_, ?_⟩
  · intro args kwargs inst h
    unfold initFromValues at h
    simp only [bind, Except.bind] at h
    cases ha : assignArgs sch (mkDefaults sch.fields) (buildArgDict sch.keys args kwargs) with
    | error e =>
      rw [ha] at h
      cases h
    | ok vals =>
      rw [ha] at h
      cases h
      rw [hf] at ha
      exact assignArgs_strInv fields sch hf hwf _ (mkDefaults fields) vals
        (mkDefaults_strInv fields hwf hdef) ha
  · intro vals k v vals2 hinv h
    exact setAttr_strInv fields sch vals vals2 k v hf hwf hinv h
  · intro inst data inst2 hs hinv h
    have hfst : strInvB fields (unpackMut inst data).1 = true := by
      unfold unpackMut
      cases hsu : structUnpack inst.schema.fmt data with
      | error e => exact hinv
      | ok decoded =>
        exact setterFold_strInv fields inst.schema (by rw [hs, hf]) hwf _ inst.values hinv
    unfold unpackInstance at h
    cases hm : unpackMut inst data with
    | mk vals opt =>
      rw [hm] at h hfst
      cases opt with
      | none =>
        cases h
        exact hfst
      | some e => cases h

/-! ## Equality helpers -/

theorem dictGet_eq_of_find (av : Values) (k : Option String) (p : Option String × Value)
    (hfind : av.find? (fun p => decide (p.1 = k)) = some p) : dictGet av k = some p.2 := by
  unfold dictGet
  rw [hfind]
  rfl

theorem dictEq_get (av bv : Values) (k : Option String) (hd : dictEq av bv = true) :
    dictGet av k = dictGet bv k := by
  rw [dictEq, Bool.and_eq_true, List.all_eq_true, List.all_eq_true] at hd
  cases hga : dictGet av k with
  | some v =>
    unfold dictGet at hga
    cases hfind : av.find? (fun p => decide (p.1 = k)) with
    | none =>
      rw [hfind] at hga
      cases hga
    | some p =>
      rw [hfind] at hga
      have hpk : p.1 = k := by
        have := List.find?_some hfind
        simpa using this
      have hpmem := List.mem_of_find?_eq_some hfind
      have hb := hd.1 p hpmem
      simp only [decide_eq_true_eq] at hb
      rw [hpk] at hb
      rw [hb]
      exact hga.symm
  | none =>
    cases hgb : dictGet bv k with
    | none => rfl
    | some w =>
      exfalso
      unfold dictGet at hgb
      cases hfind : bv.find? (fun p => decide (p.1 = k)) with
      | none =>
        rw [hfind] at hgb
        cases hgb
      | some q =>
        have hqk : q.1 = k := by
          have := List.find?_some hfind
          simpa using this
        have hqmem := List.mem_of_find?_eq_some hfind
        have ha2 := hd.2 q hqmem
        simp only [decide_eq_true_eq] at ha2
        rw [hqk] at ha2
        rw [ha2] at hga
        cases hga

theorem instEq_false_of_get_ne (a b : Instance) (k : Option String)
    (hne : dictGet a.values k ≠ dictGet b.values k) : instEq a b = false := by
  cases he : instEq a b
  · rfl
  · exfalso
    rw [instEq, Bool.and_eq_true] at he
    exact hne (dictEq_get a.values b.values k he.2)

theorem compile_ok_of_valid (fields : List Field)
    (hnone : ∀ f ∈ fields, f.type ≠ TypeCode.tnone)
    (hvalid : ∀ f ∈ fields, truthy f.type = true → codeValid f.type = true) :
    ∃ sch, compile fields = Except.ok sch := by
  unfold compile
  have h1 : (fields.any fun f => decide (f.type = TypeCode.tnone)) = false := by
    rw [List.any_eq_false]
    intro f hfmem
    simp only [decide_eq_true_eq]
    exact hnone f hfmem
  rw [h1]
  simp only [Bool.false_eq_true, if_false]
  have h2 : ((fields.filter (fun f => truthy f.type)).map (fun f => f.type)).all codeValid
      = true := by
    rw [List.all_eq_true]
    intro c hcmem
    obtain ⟨f, hfmem, hfc⟩ := List.mem_map.mp hcmem
    obtain ⟨hfmem2, hft⟩ := List.mem_filter.mp hfmem
    rw [← hfc]
    exact hvalid f hfmem2 hft
  rw [if_pos h2]
  exact ⟨_, rfl⟩

/-- C2 (amended): the claim holds with the virtual field encoded as the
*empty* (falsy) type code, which is what the compiled class machinery
accepts: compilation succeeds, the virtual field gets a property and a
default entry in the value mapping, differing virtual values separate
instances under equality, the field appears in the textual form, and it
contributes nothing to the struct format or the byte size.  (With Python
`None` as the "no type code" value, class creation raises `TypeError`
instead — see the counterexample.) -/
theorem C2_virtual_amended (fields : List Field) (vf : Field) (hvf : vf ∈ fields)
    (hvty : vf.type = TypeCode.empty)
    (hnone : ∀ f ∈ fields, f.type ≠ TypeCode.tnone)
    (hvalid : ∀ f ∈ fields, truthy f.type = true → codeValid f.type = true)
    (hwf : wfNames fields) :
    ∃ sch, compile fields = Except.ok sch ∧
      propertyOf fields vf.name = some vf ∧
      vf.name ∈ sch.keys ∧
      dictGet (mkDefaults fields) vf.name = some vf.default ∧
      (∀ a b : Instance, dictGet a.values vf.name ≠ dictGet b.values vf.name →
        instEq a b = false) ∧
      (∀ inst : Instance, inst.schema = sch →
        (vf.name, dictGet inst.values vf.name) ∈ strFields inst) ∧
      TypeCode.empty ∉ sch.fmt ∧
      (∃ sch2, compile (fields.filter (fun f => decide (f.type ≠ TypeCode.empty))) =
          Except.ok sch2 ∧ sch2.fmt = sch.fmt ∧ sch2.size = sch.size) := by
  have hvx : hasX vf.type = false := by rw [hvty]; rfl
  obtain ⟨sch, hsch⟩ := compile_ok_of_valid fields hnone hvalid
  obtain ⟨hf, hkeys, hfmt, hsize⟩ := compile_ok fields sch hsch
  refine ⟨sch, hsch, propertyOf_self fields vf hvf hvx hwf, ?_, ?_, ?_, ?_, ?_, ?_⟩
  · rw [hkeys]
    exact name_mem_nonXnames fields vf hvf hvx
  · rw [dictGet_mkDefaults, lastVal_defaults fields vf hvf hvx hwf]
  · exact fun a b hne => instEq_false_of_get_ne a b vf.name hne
  · intro inst hs
    unfold strFields
    rw [hs, hf]
    exact List.mem_map.mpr ⟨vf, hvf, rfl⟩
  · rw [hfmt]
    intro hmem
    obtain ⟨f, hfm, hft⟩ := List.mem_map.mp hmem
    obtain ⟨_, htr⟩ := List.mem_filter.mp hfm
    rw [hft] at htr
    simp [truthy] at htr
  · have hnone2 : ∀ f ∈ fields.filter (fun f => decide (f.type ≠ TypeCode.empty)),
        f.type ≠ TypeCode.tnone := fun f hf2 => hnone f (List.mem_filter.mp hf2).1
    have hvalid2 : ∀ f ∈ fields.filter (fun f => decide (f.type ≠ TypeCode.empty)),
        truthy f.type = true → codeValid f.type = true :=
      fun f hf2 => hvalid f (List.mem_filter.mp hf2).1
    obtain ⟨sch2, hsch2⟩ := compile_ok_of_valid _ hnone2 hvalid2
    obtain ⟨_, _, hfmt2, hsize2⟩ := compile_ok _ sch2 hsch2
    have hff : (fields.filter (fun f => decide (f.type ≠ TypeCode.empty))).filter
        (fun f => truthy f.type) = fields.filter (fun f => truthy f.type) := by
      rw [List.filter_filter]
      refine List.filter_congr ?_
      intro f hfm
      obtain ⟨nm, tc, df⟩ := f
      cases tc <;> simp [truthy]
    refine ⟨sch2, hsch2, ?_, ?_⟩
    · rw [hfmt2, hfmt, hff]
    · rw [hsize2, hsize, hfmt2, hfmt, hff]

/-! ## Constructor helpers -/

theorem setAttr_ok_shape (sch : Schema) (vals : Values) (k : Option String) (v : Value)
    (vals2 : Values) (h : setAttr sch vals k v = Except.ok vals2) :
    ∃ v2, vals2 = dictUpdate vals k v2 := by
  unfold setAttr at h
  cases hp : propertyOf sch.fields k with
  | none =>
    rw [hp] at h
    cases h
  | some g =>
    rw [hp] at h
    simp only [bind, Except.bind] at h
    cases hst : storeVal g.type v with
    | error e =>
      rw [hst] at h
      cases h
    | ok v2 =>
      rw [hst] at h
      cases h
      exact ⟨v2, rfl⟩

theorem assignArgs_not_key (sch : Schema) : ∀ (ps : Values) (vals vals2 : Values)
    (k : Option String), assignArgs sch vals ps = Except.ok vals2 → k ∉ sch.keys →
    dictGet vals2 k = dictGet vals k := by
  intro ps
  induction ps with
  | nil =>
    intro vals vals2 k h _
    cases h
    rfl
  | cons p rest ih =>
    intro vals vals2 k h hk
    obtain ⟨k2, v⟩ := p
    unfold assignArgs at h
    by_cases hk2 : k2 ∈ sch.keys
    · rw [if_pos hk2] at h
      simp only [bind, Except.bind] at h
      cases hset : setAttr sch vals k2 v with
      | error e =>
        rw [hset] at h
        cases h
      | ok vals3 =>
        rw [hset] at h
        obtain ⟨v2, hshape⟩ := setAttr_ok_shape sch vals k2 v vals3 hset
        have hne : k ≠ k2 := fun hc => hk (hc ▸ hk2)
        rw [ih vals3 vals2 k h hk, hshape, dictGet_update, if_neg hne]
    · rw [if_neg hk2] at h
      exact ih vals vals2 k h hk

theorem initFromValues_inv (sch : Schema) (args : List Value)
    (kwargs : List (String × Value)) (inst : Instance)
    (h : initFromValues sch args kwargs = Except.ok inst) :
    inst.schema = sch ∧ assignArgs sch (mkDefaults sch.fields)
      (buildArgDict sch.keys args kwargs) = Except.ok inst.values := by
  unfold initFromValues at h
  simp only [bind, Except.bind] at h
  cases ha : assignArgs sch (mkDefaults sch.fields) (buildArgDict sch.keys args kwargs) with
  | error e =>
    rw [ha] at h
    cases h
  | ok vals =>
    rw [ha] at h
    cases h
    exact ⟨rfl, rfl⟩

/-- C3 (amended): a filler field reserves a byte in the packed layout, its
`None` name is not among `_keys` (so it is never settable and constructor
arguments never reach it), its `_values` entry stays at the declared default
through any construction, and any two constructed instances agree on it (so
it never changes an equality verdict) — but, contrary to the original claim,
it DOES appear in the textual form, as a `None=<value>` entry. -/
theorem C3_filler_amended (fields : List Field) (sch : Schema) (xf : Field)
    (hc : compile fields = Except.ok sch) (hxf : xf ∈ fields)
    (hxty : xf.type = TypeCode.x) (hwf : wfNames fields) :
    TypeCode.x ∈ sch.fmt ∧
    none ∉ sch.keys ∧
    (∀ args kwargs inst, initFromValues sch args kwargs = Except.ok inst →
      dictGet inst.values none = dictGet (mkDefaults fields) none) ∧
    (∀ args kwargs args2 kwargs2 a b, initFromValues sch args kwargs = Except.ok a →
      initFromValues sch args2 kwargs2 = Except.ok b →
      dictGet a.values none = dictGet b.values none) ∧
    (∀ inst : Instance, inst.schema = sch →
      (none, dictGet inst.values none) ∈ strFields inst) := by
  obtain ⟨hf, hkeys, hfmt, hsize⟩ := compile_ok fields sch hc
  have hxname : xf.name = none := by
    have := hwf.1 xf hxf
    rw [if_pos (by rw [hxty]; rfl)] at this
    exact this
  have hinit : ∀ args kwargs inst, initFromValues sch args kwargs = Except.ok inst →
      dictGet inst.values none = dictGet (mkDefaults fields) none := by
    intro args kwargs inst h
    obtain ⟨hs, ha⟩ := initFromValues_inv sch args kwargs inst h
    rw [hf] at ha
    refine (assignArgs_not_key sch _ (mkDefaults fields) inst.values none ha ?_)
    rw [hkeys]
    exact none_not_mem_nonXnames fields hwf
  refine ⟨?_, ?_, hinit, ?_, ?_⟩
  · rw [hfmt]
    refine List.mem_map.mpr ⟨xf, List.mem_filter.mpr ⟨hxf, by rw [hxty]; rfl⟩, hxty⟩
  · rw [hkeys]
    exact none_not_mem_nonXnames fields hwf
  · intro args kwargs args2 kwargs2 a b ha hb
    rw [hinit args kwargs a ha, hinit args2 kwargs2 b hb]
  · intro inst hs
    unfold strFields
    rw [hs, hf]
    exact List.mem_map.mpr ⟨xf, hxf, by rw [hxname]⟩

theorem lastStored_none_of_not_mem (sch : Schema) (ps : List (Option String × Value))
    (k : Option String) (h : ∀ p ∈ ps, p.1 ≠ k) : lastStored sch ps k = none := by
  induction ps with
  | nil => rfl
  | cons p rest ih =>
    simp only [lastStored, ih (fun q hq => h q (List.mem_cons_of_mem p hq))]
    rw [if_neg (fun hc => h p (List.mem_cons_self p rest) hc.1)]

theorem dictUpdate_map_fst (d : Values) (k : Option String) (v : Value) :
    (d.map (fun p => if p.1 = k then (k, v) else p)).map Prod.fst = d.map Prod.fst := by
  rw [List.map_map]
  refine List.map_congr_left ?_
  intro p hp
  simp only [Function.comp_apply]
  by_cases hpk : p.1 = k
  · rw [if_pos hpk, hpk]
  · rw [if_neg hpk]

theorem dictUpdate_keys_nodup (d : Values) (k : Option String) (v : Value)
    (hnd : (d.map Prod.fst).Nodup) : ((dictUpdate d k v).map Prod.fst).Nodup := by
  unfold dictUpdate
  by_cases hmem : k ∈ d.map Prod.fst
  · rw [if_pos hmem, dictUpdate_map_fst d k v]
    exact hnd
  · rw [if_neg hmem, List.map_append]
    simp only [List.map_cons, List.map_nil]
    rw [List.nodup_append]
    refine ⟨hnd, List.nodup_singleton k, ?_⟩
    intro a ha hb
    rw [List.mem_singleton] at hb
    exact hmem (hb ▸ ha)

theorem foldl_update_keys_nodup (ps : List (Option String × Value)) :
    ∀ (d : Values), (d.map Prod.fst).Nodup →
    (((ps.foldl (fun d p => dictUpdate d p.1 p.2) d)).map Prod.fst).Nodup := by
  induction ps with
  | nil => exact fun d hnd => hnd
  | cons p rest ih =>
    intro d hnd
    exact ih (dictUpdate d p.1 p.2) (dictUpdate_keys_nodup d p.1 p.2 hnd)

theorem buildArgDict_keys_nodup (keys : List (Option String)) (args : List Value)
    (kwargs : List (String × Value)) :
    ((buildArgDict keys args kwargs).map Prod.fst).Nodup := by
  unfold buildArgDict
  have h1 : kwargs.foldl (fun d p => dictUpdate d (some p.1) p.2)
      ((keys.zip args).foldl (fun d p => dictUpdate d p.1 p.2) []) =
      (kwargs.map (fun p => ((some p.1 : Option String), p.2))).foldl
        (fun d p => dictUpdate d p.1 p.2)
        ((keys.zip args).foldl (fun d p => dictUpdate d p.1 p.2) []) := by
    rw [List.foldl_map]
  rw [h1]
  refine foldl_update_keys_nodup _ _ ?_
  refine foldl_update_keys_nodup _ [] ?_
  simp

theorem mem_of_dictGet (d : Values) (k : Option String) (v : Value)
    (h : dictGet d k = some v) : (k, v) ∈ d := by
  unfold dictGet at h
  cases hfind : d.find? (fun p => decide (p.1 = k)) with
  | none =>
    rw [hfind] at h
    cases h
  | some p =>
    rw [hfind] at h
    have hpk : p.1 = k := by
      have := List.find?_some hfind
      simpa using this
    have hpmem := List.mem_of_find?_eq_some hfind
    have hpv : p.2 = v := by
      cases h
      rfl
    have hp2 : p = (k, v) := by
      rw [← hpk, ← hpv]
    exact hp2 ▸ hpmem

theorem lastStored_of_nodup (sch : Schema) : ∀ (ps : List (Option String × Value))
    (k : Option String), ((ps.map Prod.fst).Nodup) →
    lastStored sch ps k =
      match dictGet ps k with
      | some v =>
        if k ∈ sch.keys then
          match propertyOf sch.fields k with
          | some f => (storeVal f.type v).toOption
          | none => none
        else none
      | none => none := by
  intro ps
  induction ps with
  | nil => intro k _; rfl
  | cons p rest ih =>
    intro k hnd
    rw [List.map_cons, List.nodup_cons] at hnd
    have hcons : lastStored sch (p :: rest) k =
        (match lastStored sch rest k with
         | some v => some v
         | none =>
           if p.1 = k ∧ k ∈ sch.keys then
             match propertyOf sch.fields k with
             | some f => (storeVal f.type p.2).toOption
             | none => none
           else none) := rfl
    by_cases hpk : p.1 = k
    · have hrest : ∀ q ∈ rest, q.1 ≠ k := by
        intro q hq hc
        exact hnd.1 (hpk ▸ hc ▸ List.mem_map.mpr ⟨q, hq, rfl⟩)
      have hstep : lastStored sch (p :: rest) k =
          (if k ∈ sch.keys then
            match propertyOf sch.fields k with
            | some f => (storeVal f.type p.2).toOption
            | none => none
          else none) := by
        rw [hcons, lastStored_none_of_not_mem sch rest k hrest]
        by_cases hk : k ∈ sch.keys
        · rw [if_pos ⟨hpk, hk⟩, if_pos hk]
        · rw [if_neg (fun hc => hk hc.2), if_neg hk]
      rw [hstep, dictGet_cons, if_pos hpk]
    · have hstep : lastStored sch (p :: rest) k = lastStored sch rest k := by
        rw [hcons]
        cases lastStored sch rest k with
        | some v => rfl
        | none => rw [if_neg (fun hc => hpk hc.1)]
      rw [hstep, ih k hnd.2, dictGet_cons, if_neg hpk]

theorem assignArgs_spec (sch : Schema) : ∀ (ps : List (Option String × Value)) (vals : Values),
    (∀ p ∈ ps, p.1 ∈ sch.keys →
      ∃ f v2, propertyOf sch.fields p.1 = some f ∧ storeVal f.type p.2 = Except.ok v2) →
    ∃ vals2, assignArgs sch vals ps = Except.ok vals2 ∧
      ∀ k, dictGet vals2 k =
        match lastStored sch ps k with
        | some v => some v
        | none => dictGet vals k := by
  intro ps
  induction ps with
  | nil => exact fun vals _ => ⟨vals, rfl, fun k => rfl⟩
  | cons p rest ih =>
    intro vals hok
    obtain ⟨k2, v⟩ := p
    have hcons : ∀ k, lastStored sch ((k2, v) :: rest) k =
        (match lastStored sch rest k with
         | some w => some w
         | none =>
           if k2 = k ∧ k ∈ sch.keys then
             match propertyOf sch.fields k with
             | some g => (storeVal g.type v).toOption
             | none => none
           else none) := fun k => rfl
    by_cases hk2 : (k2 ∈ sch.keys)
    · obtain ⟨f, v2, hpf, hsv⟩ := hok (k2, v) (List.mem_cons_self _ rest) hk2
      have hpf2 : propertyOf sch.fields k2 = some f := hpf
      have hsv2 : storeVal f.type v = Except.ok v2 := hsv
      have hset : setAttr sch vals k2 v = Except.ok (dictUpdate vals k2 v2) :=
        setAttr_eq sch vals k2 v f v2 hpf2 hsv2
      obtain ⟨vals2, ha, hchar⟩ := ih (dictUpdate vals k2 v2)
        (fun q hq => hok q (List.mem_cons_of_mem _ hq))
      refine ⟨vals2, ?_, ?_⟩
      · unfold assignArgs
        rw [if_pos hk2]
        simp only [bind, Except.bind, hset]
        exact ha
      · intro k
        rw [hchar k, hcons k]
        cases hl : lastStored sch rest k with
        | some w => rfl
        | none =>
          rw [dictGet_update]
          by_cases hk : k = k2
          · subst hk
            have hscrut : (if k = k ∧ k ∈ sch.keys then
                match propertyOf sch.fields k with
                | some g => (storeVal g.type v).toOption
                | none => none
              else none) = some v2 := by
              rw [if_pos ⟨rfl, hk2⟩, hpf2]
              rw [show (match some f with
                  | some g => (storeVal g.type v).toOption
                  | none => (none : Option Value)) = (storeVal f.type v).toOption from rfl,
                hsv2]
              rfl
            rw [hscrut, if_pos rfl]
          · rw [if_neg hk, if_neg (fun hc => hk hc.1.symm)]
    · obtain ⟨vals2, ha, hchar⟩ := ih vals (fun q hq => hok q (List.mem_cons_of_mem _ hq))
      refine ⟨vals2, ?_, ?_⟩
      · unfold assignArgs
        rw [if_neg hk2]
        exact ha
      · intro k
        rw [hchar k, hcons k]
        cases hl : lastStored sch rest k with
        | some w => rfl
        | none =>
          rw [if_neg (fun hc => hk2 (by rw [hc.1]; exact hc.2))]

theorem buildArgDict_get (keys : List (Option String)) (args : List Value)
    (kwargs : List (String × Value)) (k : Option String) :
    dictGet (buildArgDict keys args kwargs) k =
      match lastVal (kwargs.map (fun p => ((some p.1 : Option String), p.2))) k with
      | some v => some v
      | none =>
        match lastVal (keys.zip args) k with
        | some v => some v
        | none => none := by
  unfold buildArgDict
  have h1 : kwargs.foldl (fun d p => dictUpdate d (some p.1) p.2)
      ((keys.zip args).foldl (fun d p => dictUpdate d p.1 p.2) []) =
      (kwargs.map (fun p => ((some p.1 : Option String), p.2))).foldl
        (fun d p => dictUpdate d p.1 p.2)
        ((keys.zip args).foldl (fun d p => dictUpdate d p.1 p.2) []) := by
    rw [List.foldl_map]
  rw [h1, dictGet_foldl_update]
  cases lastVal (kwargs.map (fun p => ((some p.1 : Option String), p.2))) k with
  | some v => rfl
  | none =>
    rw [dictGet_foldl_update]
    cases lastVal (keys.zip args) k with
    | some v => rfl
    | none => rfl

theorem lastVal_zip_of_not_mem (keys : List (Option String)) (args : List Value)
    (k : Option String) (hk : k ∉ keys) : lastVal (keys.zip args) k = none := by
  refine lastVal_none _ _ ?_
  intro p hp hc
  exact hk (hc ▸ (List.of_mem_zip hp).1)

theorem lastVal_zip_of_mem (keys : List (Option String)) : ∀ (args : List Value)
    (k : Option String) (v : Value), keys.Nodup → (k, v) ∈ keys.zip args →
    lastVal (keys.zip args) k = some v := by
  induction keys with
  | nil =>
    intro args k v _ hmem
    simp at hmem
  | cons k2 krest ih =>
    intro args k v hnd hmem
    cases args with
    | nil => simp at hmem
    | cons a arest =>
      rw [List.zip_cons_cons] at hmem ⊢
      rcases List.mem_cons.mp hmem with hc | hc
      · have hkk : k = k2 := congrArg Prod.fst hc
        have hvv : v = a := congrArg Prod.snd hc
        subst hkk
        subst hvv
        have hnone : lastVal (krest.zip arest) k = none :=
          lastVal_zip_of_not_mem krest arest k (List.nodup_cons.mp hnd).1
        simp only [lastVal, hnone]
        simp
      · have := ih arest k v (List.nodup_cons.mp hnd).2 hc
        simp only [lastVal, this]

theorem map_update_id (rest : Values) (k : Option String) (v : Value)
    (hr : k ∉ rest.map Prod.fst) :
    rest.map (fun p => if p.1 = k then (k, v) else p) = rest := by
  induction rest with
  | nil => rfl
  | cons q qrest ih =>
    simp only [List.map_cons, List.mem_cons] at hr
    push_neg at hr
    rw [List.map_cons, if_neg (fun hc => hr.1 hc.symm), ih hr.2]

theorem filter_dictUpdate_not_key (sch : Schema) (argd : Values) (k : Option String)
    (v : Value) (hk : k ∉ sch.keys) :
    (dictUpdate argd k v).filter (fun p => decide (p.1 ∈ sch.keys)) =
      argd.filter (fun p => decide (p.1 ∈ sch.keys)) := by
  unfold dictUpdate
  by_cases hmem : k ∈ argd.map Prod.fst
  · rw [if_pos hmem]
    induction argd with
    | nil => rfl
    | cons p rest ih =>
      simp only [List.map_cons, List.mem_cons] at hmem
      by_cases hp : p.1 = k
      · simp only [List.map_cons, if_pos hp, List.filter_cons]
        rw [if_neg (by simp [hk]), if_neg (by simp [hp, hk])]
        by_cases hr : k ∈ rest.map Prod.fst
        · exact ih hr
        · rw [map_update_id rest k v hr]
      · simp only [List.map_cons, if_neg hp, List.filter_cons]
        rcases hmem with hc | hc
        · exact absurd hc.symm hp
        · by_cases hpk : (p.1 ∈ sch.keys)
          · rw [if_pos (by simpa using hpk), if_pos (by simpa using hpk), ih hc]
          · rw [if_neg (by simpa using hpk), if_neg (by simpa using hpk), ih hc]
  · rw [if_neg hmem, List.filter_append]
    have hlast : ([(k, v)] : Values).filter (fun p => decide (p.1 ∈ sch.keys)) = [] := by
      simp [hk]
    rw [hlast, List.append_nil]

theorem assignArgs_cons (sch : Schema) (vals : Values) (k2 : Option String) (v : Value)
    (rest : List (Option String × Value)) :
    assignArgs sch vals ((k2, v) :: rest) =
      if k2 ∈ sch.keys then
        match setAttr sch vals k2 v with
        | Except.ok vals2 => assignArgs sch vals2 rest
        | Except.error e => Except.error e
      else assignArgs sch vals rest := by
  rw [show assignArgs sch vals ((k2, v) :: rest) =
    (if k2 ∈ sch.keys then do
      let vals2 ← setAttr sch vals k2 v
      assignArgs sch vals2 rest
    else assignArgs sch vals rest) from rfl]
  by_cases hk : k2 ∈ sch.keys
  · rw [if_pos hk, if_pos hk]
    simp only [bind, Except.bind]
    cases setAttr sch vals k2 v <;> rfl
  · rw [if_neg hk, if_neg hk]

theorem assignArgs_filter (sch : Schema) : ∀ (ps : List (Option String × Value))
    (vals : Values), assignArgs sch vals ps =
      assignArgs sch vals (ps.filter (fun p => decide (p.1 ∈ sch.keys))) := by
  intro ps
  induction ps with
  | nil => exact fun vals => rfl
  | cons p rest ih =>
    intro vals
    obtain ⟨k2, v⟩ := p
    by_cases hk2 : (k2 ∈ sch.keys)
    · rw [List.filter_cons, if_pos (by simpa using hk2), assignArgs_cons, assignArgs_cons,
        if_pos hk2, if_pos hk2]
      cases hset : setAttr sch vals k2 v with
      | error e => rfl
      | ok vals3 => exact ih vals3
    · rw [List.filter_cons, if_neg (by simpa using hk2), assignArgs_cons, if_neg hk2]
      exact ih vals

theorem buildArgDict_append_kwarg (keys : List (Option String)) (args : List Value)
    (kwargs : List (String × Value)) (kstr : String) (v : Value) :
    buildArgDict keys args (kwargs ++ [(kstr, v)]) =
      dictUpdate (buildArgDict keys args kwargs) (some kstr) v := by
  unfold buildArgDict
  rw [List.foldl_append]
  rfl

theorem zip_take_length (keys : List (Option String)) : ∀ (args : List Value),
    keys.zip args = keys.zip (args.take keys.length) := by
  induction keys with
  | nil => intro args; rfl
  | cons k2 krest ih =>
    intro args
    cases args with
    | nil => rfl
    | cons a arest =>
      simp only [List.zip_cons_cons, List.length_cons, List.take_succ_cons]
      rw [ih arest]

/-- C7: constructor semantics for construction from values (no raw-bytes
argument): positional values are assigned through the setters to the
non-filler keys in declaration order, keyword values override positional
ones by name, keys reached by neither keep their descriptor default,
keyword values for unknown keys are silently ignored, and positional values
beyond the assignable keys are silently discarded. -/
theorem C7_constructor (fields : List Field) (sch : Schema) (args : List Value)
    (kwargs : List (String × Value))
    (hc : compile fields = Except.ok sch)
    (hok : ∀ p ∈ buildArgDict sch.keys args kwargs, p.1 ∈ sch.keys →
      ∃ f v2, propertyOf sch.fields p.1 = some f ∧ storeVal f.type p.2 = Except.ok v2)
    (hwf : wfNames fields) :
    ∃ inst, initFromValues sch args kwargs = Except.ok inst ∧ inst.schema = sch ∧
      (∀ k v, (k, v) ∈ sch.keys.zip args → (∀ p ∈ kwargs, some p.1 ≠ k) →
        ∃ f v2, propertyOf sch.fields k = some f ∧ storeVal f.type v = Except.ok v2 ∧
          dictGet inst.values k = some v2) ∧
      (∀ kstr v, lastVal (kwargs.map (fun p => ((some p.1 : Option String), p.2)))
          (some kstr) = some v → some kstr ∈ sch.keys →
        ∃ f v2, propertyOf sch.fields (some kstr) = some f ∧
          storeVal f.type v = Except.ok v2 ∧ dictGet inst.values (some kstr) = some v2) ∧
      (∀ k, k ∈ sch.keys → (∀ p ∈ kwargs, some p.1 ≠ k) →
        (∀ v, (k, v) ∉ sch.keys.zip args) →
        dictGet inst.values k = dictGet (mkDefaults sch.fields) k) ∧
      (∀ kstr v, some kstr ∉ sch.keys →
        initFromValues sch args (kwargs ++ [(kstr, v)]) =
          initFromValues sch args kwargs) ∧
      initFromValues sch (args.take sch.keys.length) kwargs =
        initFromValues sch args kwargs := by
  have hnd : sch.keys.Nodup := by
    rw [(compile_ok fields sch hc).2.1]
    exact hwf.2
  have hndkeys : ((buildArgDict sch.keys args kwargs).map Prod.fst).Nodup :=
    buildArgDict_keys_nodup sch.keys args kwargs
  obtain ⟨vals2, ha, hchar⟩ := assignArgs_spec sch (buildArgDict sch.keys args kwargs)
    (mkDefaults sch.fields) hok
  have hinit : initFromValues sch args kwargs = Except.ok ⟨sch, vals2⟩ := by
    unfold initFromValues
    simp only [bind, Except.bind, ha]
  have hkey : ∀ k v, dictGet (buildArgDict sch.keys args kwargs) k = some v →
      k ∈ sch.keys →
      ∃ f v2, propertyOf sch.fields k = some f ∧ storeVal f.type v = Except.ok v2 ∧
        dictGet vals2 k = some v2 := by
    intro k v hget hkk
    obtain ⟨f, v2, hpf, hsv⟩ := hok (k, v)
      (mem_of_dictGet (buildArgDict sch.keys args kwargs) k v hget) hkk
    have hpf2 : propertyOf sch.fields k = some f := hpf
    have hsv2 : storeVal f.type v = Except.ok v2 := hsv
    refine ⟨f, v2, hpf2, hsv2, ?_⟩
    have hls : lastStored sch (buildArgDict sch.keys args kwargs) k = some v2 := by
      rw [lastStored_of_nodup sch (buildArgDict sch.keys args kwargs) k hndkeys, hget]
      rw [show (match some v with
          | some w =>
            if k ∈ sch.keys then
              match propertyOf sch.fields k with
              | some g => (storeVal g.type w).toOption
              | none => none
            else none
          | none => (none : Option Value)) =
          (if k ∈ sch.keys then
            match propertyOf sch.fields k with
            | some g => (storeVal g.type v).toOption
            | none => none
          else none) from rfl]
      rw [if_pos hkk, hpf2]
      rw [show (match some f with
          | some g => (storeVal g.type v).toOption
          | none => (none : Option Value)) = (storeVal f.type v).toOption from rfl, hsv2]
      rfl
    rw [hchar k, hls]
  have hdef : ∀ k, dictGet (buildArgDict sch.keys args kwargs) k = none →
      dictGet vals2 k = dictGet (mkDefaults sch.fields) k := by
    intro k hget
    have hls : lastStored sch (buildArgDict sch.keys args kwargs) k = none := by
      rw [lastStored_of_nodup sch (buildArgDict sch.keys args kwargs) k hndkeys, hget]
    rw [hchar k, hls]
  refine ⟨⟨sch, vals2⟩, hinit, rfl, ?_, ?_, ?_, ?_, ?_⟩
  · intro k v hmem hkw
    have hkwnone : lastVal (kwargs.map (fun p => ((some p.1 : Option String), p.2))) k
        = none := by
      refine lastVal_none _ _ ?_
      intro p hp
      obtain ⟨q, hq, hqp⟩ := List.mem_map.mp hp
      rw [← hqp]
      exact hkw q hq
    have hget : dictGet (buildArgDict sch.keys args kwargs) k = some v := by
      rw [buildArgDict_get, hkwnone, lastVal_zip_of_mem sch.keys args k v hnd hmem]
    exact hkey k v hget (List.of_mem_zip hmem).1
  · intro kstr v hkw hmemk
    have hget : dictGet (buildArgDict sch.keys args kwargs) (some kstr) = some v := by
      rw [buildArgDict_get, hkw]
    exact hkey (some kstr) v hget hmemk
  · intro k hkk hkw hzip
    have hkwnone : lastVal (kwargs.map (fun p => ((some p.1 : Option String), p.2))) k
        = none := by
      refine lastVal_none _ _ ?_
      intro p hp
      obtain ⟨q, hq, hqp⟩ := List.mem_map.mp hp
      rw [← hqp]
      exact hkw q hq
    have hzipnone : lastVal (sch.keys.zip args) k = none := by
      refine lastVal_none _ _ ?_
      intro p hp hc
      exact hzip p.2 (by rw [← hc]; exact hp)
    have hget : dictGet (buildArgDict sch.keys args kwargs) k = none := by
      rw [buildArgDict_get, hkwnone, hzipnone]
    exact hdef k hget
  · intro kstr v hunk
    have hba : assignArgs sch (mkDefaults sch.fields)
        (buildArgDict sch.keys args (kwargs ++ [(kstr, v)])) =
        assignArgs sch (mkDefaults sch.fields) (buildArgDict sch.keys args kwargs) := by
      rw [buildArgDict_append_kwarg,
        assignArgs_filter sch (dictUpdate (buildArgDict sch.keys args kwargs) (some kstr) v),
        filter_dictUpdate_not_key sch (buildArgDict sch.keys args kwargs) (some kstr) v hunk,
        ← assignArgs_filter]
    unfold initFromValues
    rw [hba]
  · have hbd : buildArgDict sch.keys (args.take sch.keys.length) kwargs =
        buildArgDict sch.keys args kwargs := by
      unfold buildArgDict
      rw [← zip_take_length]
    unfold initFromValues
    rw [hbd]

/-! ## Counterexamples and witnesses -/

/-- C1 counterexample: an instance of a compiled record type holding a
9-character string in an 8-byte string field (reachable through the
constructor, whose setter never truncates) packs successfully, but
unpacking the packed bytes yields a different stored value, so
`unpack(pack(r))` does not equal `r` on stored fields. -/
theorem C1_counterexample :
    compile nameFields = Except.ok nameSch ∧
    initFromValues nameSch [Value.str [65, 66, 67, 68, 69, 70, 71, 72, 73]] [] =
      Except.ok longInst ∧
    packInstance longInst = Except.ok [65, 66, 67, 68, 69, 70, 71, 72] ∧
    unpackInstance longInst [65, 66, 67, 68, 69, 70, 71, 72] =
      Except.ok ⟨nameSch, [(some "name", Value.str [65, 66, 67, 68, 69, 70, 71, 72])]⟩ ∧
    dictGet [((some "name" : Option String),
        Value.str [65, 66, 67, 68, 69, 70, 71, 72])] (some "name") ≠
      dictGet longInst.values (some "name") := by
  decide

/-- C1 witness: the amended round trip applied to a concrete instance with
a string, a filler, a 16-bit and a 32-bit field. -/
theorem C1_roundtrip_witness :
    ∃ out inst2, packInstance exInst = Except.ok out ∧
      unpackInstance exInst out = Except.ok inst2 ∧ inst2.schema = exInst.schema ∧
      ∀ k, dictGet inst2.values k = dictGet exInst.values k :=
  C1_roundtrip_amended exFields exSch exInst (by decide) rfl (by decide) (by decide)
    (by decide)

/-- C2 counterexample: a field list containing a virtual field with Python
`None` as its type — the "no type code" form named by the source docstring —
makes class creation raise `TypeError` at line 93 (`'x' not in None`), so
schema compilation does not succeed. -/
theorem C2_counterexample :
    compile [⟨some "v", TypeCode.tnone, Value.int 0⟩] = Except.error "TypeError" := by
  decide

/-- C2 witness: the amended virtual-field behaviour on a concrete record
type with one stored and one empty-type virtual field. -/
theorem C2_virtual_witness :
    ∃ sch, compile c2Fields = Except.ok sch ∧
      propertyOf c2Fields (some "v") = some ⟨some "v", TypeCode.empty, Value.int 7⟩ ∧
      (some "v" : Option String) ∈ sch.keys ∧
      dictGet (mkDefaults c2Fields) (some "v") = some (Value.int 7) ∧
      (∀ a b : Instance, dictGet a.values (some "v") ≠ dictGet b.values (some "v") →
        instEq a b = false) ∧
      (∀ inst : Instance, inst.schema = sch →
        ((some "v" : Option String), dictGet inst.values (some "v")) ∈ strFields inst) ∧
      TypeCode.empty ∉ sch.fmt ∧
      (∃ sch2, compile (c2Fields.filter (fun f => decide (f.type ≠ TypeCode.empty))) =
          Except.ok sch2 ∧ sch2.fmt = sch.fmt ∧ sch2.size = sch.size) :=
  C2_virtual_amended c2Fields ⟨some "v", TypeCode.empty, Value.int 7⟩ (by decide) rfl
    (by decide) (by decide) (by decide)

/-- C3 counterexample: a compiled record type with a filler field, whose
constructed instance shows the filler (under its `None` name) in the
textual form — refuting "never appears in the textual form". -/
theorem C3_counterexample :
    compile c3Fields = Except.ok c3Sch ∧
    initFromValues c3Sch [] [] =
      Except.ok ⟨c3Sch, [(some "a", Value.int 0), (none, Value.int 0)]⟩ ∧
    (strFields ⟨c3Sch, [(some "a", Value.int 0), (none, Value.int 0)]⟩).any
      (fun p => decide (p.1 = none)) = true := by
  decide

/-- C3 witness: the amended filler-field behaviour on the concrete type
`c3Fields`. -/
theorem C3_filler_witness :
    TypeCode.x ∈ c3Sch.fmt ∧
    (none : Option String) ∉ c3Sch.keys ∧
    (∀ args kwargs inst, initFromValues c3Sch args kwargs = Except.ok inst →
      dictGet inst.values none = dictGet (mkDefaults c3Fields) none) ∧
    (∀ args kwargs args2 kwargs2 a b, initFromValues c3Sch args kwargs = Except.ok a →
      initFromValues c3Sch args2 kwargs2 = Except.ok b →
      dictGet a.values none = dictGet b.values none) ∧
    (∀ inst : Instance, inst.schema = c3Sch →
      ((none : Option String), dictGet inst.values none) ∈ strFields inst) :=
  C3_filler_amended c3Fields c3Sch ⟨none, TypeCode.x, Value.int 0⟩ (by decide) (by decide)
    rfl (by decide)

/-- C4 witness: packing the concrete instance `exInst` yields exactly
`size` bytes. -/
theorem C4_pack_length_witness :
    ([65, 66, 0, 0, 0, 0, 0, 0, 0, 251, 255, 160, 134, 1, 0] : List Nat).length =
      exSch.size :=
  C4_pack_length exFields exSch exInst
    [65, 66, 0, 0, 0, 0, 0, 0, 0, 251, 255, 160, 134, 1, 0] (by decide) rfl (by decide)

/-- C5 counterexample: for the one-character string `"\0"` (length 1 ≤ 8),
`strip(pad(s))` is the empty string, not `s` — the claimed identity fails
for strings containing NUL. -/
theorem C5_counterexample :
    ([0] : List Nat).length ≤ 8 ∧
    zpad (Value.str [0]) = Except.ok [0, 0, 0, 0, 0, 0, 0, 0] ∧
    zstrip (Value.bytes [0, 0, 0, 0, 0, 0, 0, 0]) = Except.ok (Value.str []) ∧
    Value.str [] ≠ Value.str [0] := by
  decide

/-- C5 witness: the amended padding/stripping contract at the concrete
string `"AB"`. -/
theorem C5_strip_pad_witness :
    (∃ b, zpad (Value.str [65, 66]) = Except.ok b ∧ b.length = 8 ∧
      (8 ≤ ([65, 66] : List Nat).length → b = ([65, 66] : List Nat).take 8) ∧
      (([65, 66] : List Nat).length ≤ 8 →
        b = [65, 66] ++ List.replicate (8 - ([65, 66] : List Nat).length) 0)) ∧
    (([65, 66] : List Nat).length ≤ 8 →
      (∀ c ∈ ([65, 66] : List Nat), 0 < c ∧ c < 128) →
      ∃ b, zpad (Value.str [65, 66]) = Except.ok b ∧
        zstrip (Value.bytes b) = Except.ok (Value.str [65, 66])) :=
  C5_strip_pad_amended [65, 66] (by decide)

/-- C6 counterexample: a compiled record type with a leading virtual field,
on which `unpack` of a buffer of exactly `size` bytes raises `TypeError`:
`zip(self._keys, ...)` shifts the decoded values, so the string field's
setter receives an integer. -/
theorem C6_counterexample :
    compile c6Fields = Except.ok c6Sch ∧
    (List.replicate 10 0).length = c6Sch.size ∧
    unpackInstance ⟨c6Sch, mkDefaults c6Fields⟩ (List.replicate 10 0) =
      Except.error "TypeError" := by
  decide

/-- C6 witness: on the virtual-free type `exSch`, a 14-byte buffer fails
with the size error and a 15-byte buffer unpacks successfully. -/
theorem C6_unpack_witness :
    unpackInstance exInst (List.replicate 14 0) = Except.error (sizeErr exSch.size) ∧
    ∃ inst2, unpackInstance exInst (List.replicate 15 0) = Except.ok inst2 :=
  ⟨(C6_unpack_amended exFields exSch exInst (List.replicate 14 0) (by decide) rfl
      (by decide) (by decide)).1 (by decide),
   (C6_unpack_amended exFields exSch exInst (List.replicate 15 0) (by decide) rfl
      (by decide) (by decide)).2 (by decide)⟩

/-- C7 witness: the constructor semantics applied to the specification's
example type, constructed with one positional string, a keyword `count`,
and an unknown keyword `junk`. -/
theorem C7_constructor_witness :
    ∃ inst, initFromValues c7Sch [Value.str [65, 66]]
        [("count", Value.int 5), ("junk", Value.int 9)] = Except.ok inst ∧
      inst.schema = c7Sch ∧
      (∀ k v, (k, v) ∈ c7Sch.keys.zip [Value.str [65, 66]] →
        (∀ p ∈ [("count", Value.int 5), ("junk", Value.int 9)], some p.1 ≠ k) →
        ∃ f v2, propertyOf c7Sch.fields k = some f ∧ storeVal f.type v = Except.ok v2 ∧
          dictGet inst.values k = some v2) ∧
      (∀ kstr v, lastVal ([("count", Value.int 5), ("junk", Value.int 9)].map
          (fun p => ((some p.1 : Option String), p.2))) (some kstr) = some v →
        some kstr ∈ c7Sch.keys →
        ∃ f v2, propertyOf c7Sch.fields (some kstr) = some f ∧
          storeVal f.type v = Except.ok v2 ∧ dictGet inst.values (some kstr) = some v2) ∧
      (∀ k, k ∈ c7Sch.keys →
        (∀ p ∈ [("count", Value.int 5), ("junk", Value.int 9)], some p.1 ≠ k) →
        (∀ v, (k, v) ∉ c7Sch.keys.zip [Value.str [65, 66]]) →
        dictGet inst.values k = dictGet (mkDefaults c7Sch.fields) k) ∧
      (∀ kstr v, some kstr ∉ c7Sch.keys →
        initFromValues c7Sch [Value.str [65, 66]]
            ([("count", Value.int 5), ("junk", Value.int 9)] ++ [(kstr, v)]) =
          initFromValues c7Sch [Value.str [65, 66]]
            [("count", Value.int 5), ("junk", Value.int 9)]) ∧
      initFromValues c7Sch (([Value.str [65, 66]] : List Value).take c7Sch.keys.length)
          [("count", Value.int 5), ("junk", Value.int 9)] =
        initFromValues c7Sch [Value.str [65, 66]]
          [("count", Value.int 5), ("junk", Value.int 9)] :=
  C7_constructor c7Fields c7Sch [Value.str [65, 66]]
    [("count", Value.int 5), ("junk", Value.int 9)] (by decide)
    (by
      intro p hp hkk
      have hargd : buildArgDict c7Sch.keys [Value.str [65, 66]]
          [("count", Value.int 5), ("junk", Value.int 9)] =
          [(some "id", Value.str [65, 66]), (some "count", Value.int 5),
           (some "junk", Value.int 9)] := by decide
      rw [hargd] at hp
      simp only [List.mem_cons, List.not_mem_nil, or_false] at hp
      rcases hp with rfl | rfl | rfl
      · exact ⟨⟨some "id", TypeCode.s 4, Value.str []⟩, Value.str [65, 66],
          by decide, by decide⟩
      · exact ⟨⟨some "count", TypeCode.h, Value.int 0⟩, Value.int 5, by decide, by decide⟩
      · exact absurd hkk (by decide))
    (by decide)

/-- C8 witness: a field list with the unsupported code fails to compile. -/
theorem C8_bad_code_witness :
    ∃ e, compile [⟨some "z", TypeCode.bad, Value.int 0⟩] = Except.error e :=
  C8_bad_code [⟨some "z", TypeCode.bad, Value.int 0⟩]
    ⟨⟨some "z", TypeCode.bad, Value.int 0⟩, by decide, rfl⟩

/-- C9 witness: a failed 3-byte unpack of the 15-byte type leaves the
values dict untouched and reports the size error. -/
theorem C9_unpack_atomic_witness :
    unpackMut exInst [0, 1, 2] = (exInst.values, some (sizeErr exSch.size)) :=
  C9_unpack_atomic exFields exSch exInst [0, 1, 2] (by decide) rfl (by decide)

/-- C10 witness: constructing the example type with a NUL-containing string
argument still yields a NUL-free stored string. -/
theorem C10_string_invariant_witness :
    strInvB c7Fields ((⟨c7Sch, [(some "id", Value.str [65]),
      (some "count", Value.int 0)]⟩ : Instance)).values = true :=
  (C10_string_invariant c7Fields c7Sch (by decide) (by decide) (by decide)).1
    [Value.str [65, 0, 66]] []
    ⟨c7Sch, [(some "id", Value.str [65]), (some "count", Value.int 0)]⟩ (by decide)

end Buildvis
